import Mathlib

/-!
# Verification of the 404-page-checker crawl engine

A shallow embedding of `src/app.py` (a bounded single-domain link checker).
URLs are modelled as `List Char`.  The Python standard-library helpers the
code calls (`urllib.parse.urlparse`, `.geturl()`, `urljoin`) are modelled
after CPython 3.11 `urllib/parse.py`; the raising branches for bracketed
IPv6 hosts and non-NFKC netlocs are not modelled (the model is total).
`requests.get` and `BeautifulSoup` are modelled as oracles supplied in an
environment structure.
-/

namespace App

abbrev Url := List Char

/-! ## Generic list helpers -/

/-- `p` occurs as a leading segment of `l`. -/
def isLead : List Char → List Char → Bool
  | [], _ => true
  | _ :: _, [] => false
  | a :: as, b :: bs => a == b && isLead as bs

/-- `p` occurs as a trailing segment of `l` (Python `str.endswith`). -/
def isTail (p l : List Char) : Bool := isLead p.reverse l.reverse

/-- `p` occurs as a contiguous substring of `l` (Python `in`). -/
def hasSub (p : List Char) : List Char → Bool
  | [] => isLead p []
  | c :: tl => isLead p (c :: tl) || hasSub p tl

/-! ## CPython 3.11 `urllib.parse` model -/

/-- WHATWG C0-control-or-space characters, stripped from the start of a URL. -/
def stripChar (c : Char) : Bool := c.toNat ≤ 32

/-- `_UNSAFE_URL_BYTES_TO_REMOVE`: tab, CR, LF, removed everywhere. -/
def removedChar (c : Char) : Bool := c == '\t' || c == '\r' || c == '\n'

/-- The leading strip and unsafe-byte removal performed by `urlsplit`. -/
def cleanUrl (l : List Char) : List Char :=
  (l.dropWhile stripChar).filter (fun c => !removedChar c)

/-- Characters permitted in a scheme name (`scheme_chars`). -/
def schemeChar (c : Char) : Bool := c.isAlpha || c.isDigit || c == '+' || c == '-' || c == '.'

/-- First character of a candidate scheme: ASCII alphabetic. -/
def headAlpha : List Char → Bool
  | [] => false
  | c :: _ => c.isAlpha

/-- Scheme extraction step of `urlsplit`: if there is a `:` at position `i > 0`
and everything before it is scheme characters with an alphabetic first
character, split it off and lowercase it. -/
def splitScheme (l : List Char) : List Char × List Char :=
  let pre := l.takeWhile (· ≠ ':')
  if ':' ∈ l ∧ pre ≠ [] ∧ headAlpha l = true ∧ pre.all schemeChar then
    (pre.map Char.toLower, (l.dropWhile (· ≠ ':')).tail)
  else ([], l)

/-- A character that does not end the netloc (`_splitnetloc` delimiters). -/
def netChar (c : Char) : Bool := c ≠ '/' && c ≠ '?' && c ≠ '#'

/-- Python `url.split(sep, 1)`, with no-op when `sep` is absent. -/
def splitOnce (sep : Char) (l : List Char) : List Char × List Char :=
  (l.takeWhile (· ≠ sep), (l.dropWhile (· ≠ sep)).tail)

/-- The segment of `l` strictly after its last `/` (all of `l` if none). -/
def afterLastSlash (l : List Char) : List Char :=
  (l.reverse.takeWhile (· ≠ '/')).reverse

/-- The part of `l` up to and including its last `/`. -/
def upToLastSlash (l : List Char) : List Char :=
  (l.reverse.dropWhile (· ≠ '/')).reverse

/-- `_splitparams` (only ever called when `;` is present). -/
def splitParams (l : List Char) : List Char × List Char :=
  if '/' ∈ l then
    let seg := afterLastSlash l
    if ';' ∈ seg then
      (upToLastSlash l ++ seg.takeWhile (· ≠ ';'), (seg.dropWhile (· ≠ ';')).tail)
    else (l, [])
  else (l.takeWhile (· ≠ ';'), (l.dropWhile (· ≠ ';')).tail)

/-- `uses_params` of CPython 3.11. -/
def usesParams : List (List Char) :=
  ["", "ftp", "hdl", "prospero", "http", "imap", "https", "shttp", "rtsp",
   "rtspu", "sip", "sips", "mms", "sftp", "tel"].map String.data

/-- `uses_netloc` of CPython 3.11. -/
def usesNetloc : List (List Char) :=
  ["", "ftp", "http", "gopher", "nntp", "telnet", "imap", "wais", "file",
   "mms", "https", "shttp", "snews", "prospero", "rtsp", "rtspu", "rsync",
   "svn", "svn+ssh", "sftp", "nfs", "git", "git+ssh", "ws", "wss"].map String.data

/-- Result of `urlparse`: the six named components. -/
structure Parts where
  scheme : List Char
  netloc : List Char
  path : List Char
  params : List Char
  query : List Char
  fragment : List Char
deriving DecidableEq

/-- The `_splitparams` call site: split only for `uses_params` schemes with a
`;` present. -/
def parseParams (scheme l : List Char) : List Char × List Char :=
  if scheme ∈ usesParams ∧ ';' ∈ l then splitParams l else (l, [])

/-- The fragment / query / params stages of `urlparse`, applied to the
remainder `w2` after scheme and netloc extraction. -/
def parsePQF (scheme netloc w2 : List Char) : Parts :=
  let fq := splitOnce '#' w2
  let qy := splitOnce '?' fq.1
  let pp := parseParams scheme qy.1
  ⟨scheme, netloc, pp.1, pp.2, qy.2, fq.2⟩

/-- The netloc stage of `urlparse`: extract a netloc iff the remainder after
the scheme starts with `//`. -/
def parseTail (scheme w1 : List Char) : Parts :=
  if w1.take 2 = ['/', '/'] then
    parsePQF scheme ((w1.drop 2).takeWhile netChar) ((w1.drop 2).dropWhile netChar)
  else parsePQF scheme [] w1

/-- CPython 3.11 `urlparse` (via `urlsplit` and `_splitparams`). -/
def urlparse (u : Url) : Parts :=
  parseTail (splitScheme (cleanUrl u)).1 (splitScheme (cleanUrl u)).2

/-- Re-attach params to the path (`urlunparse` first step). -/
def joinParams (p par : List Char) : List Char :=
  if par ≠ [] then p ++ ';' :: par else p

/-- CPython 3.11 `urlunparse` composed with `urlunsplit` (i.e. `.geturl()`). -/
def urlunparse (c : Parts) : List Char :=
  let url := joinParams c.path c.params
  let url :=
    if c.netloc ≠ [] ∨ (c.scheme ≠ [] ∧ c.scheme ∈ usesNetloc ∧ url.take 2 ≠ ['/', '/']) then
      '/' :: '/' :: (c.netloc ++ (if url ≠ [] ∧ url.take 1 ≠ ['/'] then '/' :: url else url))
    else url
  let url := if c.scheme ≠ [] then c.scheme ++ ':' :: url else url
  let url := if c.query ≠ [] then url ++ '?' :: c.query else url
  if c.fragment ≠ [] then url ++ '#' :: c.fragment else url

/-- `normalize` from `src/app.py`:
`urlparse(url)._replace(query="", fragment="").geturl()`. -/
def normalize (u : Url) : Url :=
  urlunparse { urlparse u with query := [], fragment := [] }

/-- The `//`-restoration step of `urlunsplit` on the rejoined
path-with-params. -/
def coreU1 (scheme netloc pp : List Char) : List Char :=
  if netloc ≠ [] ∨ (scheme ≠ [] ∧ scheme ∈ usesNetloc ∧ pp.take 2 ≠ ['/', '/']) then
    '/' :: '/' :: (netloc ++ (if pp ≠ [] ∧ pp.take 1 ≠ ['/'] then '/' :: pp else pp))
  else pp

/-- `urlunsplit` applied to scheme, netloc and an already-rejoined
path-with-params, with query and fragment empty. -/
def unparseCore (scheme netloc pp : List Char) : List Char :=
  if scheme ≠ [] then scheme ++ ':' :: coreU1 scheme netloc pp else coreU1 scheme netloc pp

/-- The degenerate shape on which re-parsing the unparsed form swallows a
leading `//` of the path as an (empty-host) netloc marker that is not
re-emitted. -/
def coreBad (scheme netloc pp : List Char) : Prop :=
  netloc = [] ∧ pp.take 2 = ['/', '/'] ∧ (pp.drop 2).takeWhile netChar = [] ∧
    ¬(scheme ≠ [] ∧ scheme ∈ usesNetloc ∧ (pp.drop 2).take 2 ≠ ['/', '/'])

instance (s n pp : List Char) : Decidable (coreBad s n pp) := by
  unfold coreBad; infer_instance

/-- The class of URLs on which `normalize` fails to be idempotent: parses with
an empty netloc whose rejoined path starts with slashes that re-parsing
swallows.  E.g. `http://////x`. -/
def slashDegenerate (c : Parts) : Prop :=
  coreBad c.scheme c.netloc (joinParams c.path c.params)

instance (c : Parts) : Decidable (slashDegenerate c) := by
  unfold slashDegenerate; infer_instance

/-! ## `is_internal`, `should_skip`, `get_links` (src/app.py lines 40-57) -/

def is_internal (u domain : Url) : Bool := (urlparse u).netloc == domain

def SKIP_EXTENSIONS : List (List Char) :=
  [".jpg", ".jpeg", ".png", ".gif", ".svg", ".webp", ".pdf", ".zip", ".mp4",
   ".mp3", ".woff", ".woff2", ".css", ".js"].map String.data

def SKIP_PATTERNS : List (List Char) :=
  ["?page=", "&page=", "/cdn-cgi/"].map String.data

/-- `any(p.path.lower().endswith(e) for e in SKIP_EXTENSIONS)`. -/
def extSkip (path : List Char) : Bool :=
  SKIP_EXTENSIONS.any (fun e => isTail e (path.map Char.toLower))

def should_skip (u : Url) : Bool :=
  extSkip (urlparse u).path || SKIP_PATTERNS.any (fun pat => hasSub pat u)

/-- `urljoin` of the standard library: the two leading truthiness guards are
modelled exactly; the RFC-3986 resolution of a nonempty relative reference
against a nonempty base is abstracted as the oracle `j`. -/
def urljoin (j : Url → Url → Url) (base rel : Url) : Url :=
  if base = [] then rel else if rel = [] then base else j base rel

def schemeHttp (u : Url) : Bool :=
  (urlparse u).scheme == "http".data || (urlparse u).scheme == "https".data

def insertAbsent (x : Url) (l : List Url) : List Url := if x ∈ l then l else l ++ [x]

/-- `get_links(url, html, domain)`: BeautifulSoup anchor extraction is the
oracle `soup` mapping an HTML body to the list of `href` attribute values;
the Python `set` is modelled as a duplicate-free list. -/
def get_links (soup : Url → List Url) (j : Url → Url → Url) (url html : Url) : List Url :=
  (soup html).foldl (fun acc href =>
    let full := normalize (urljoin j url href)
    if schemeHttp full && !extSkip (urlparse full).path then insertAbsent full acc else acc) []

/-! ## `fetch` (src/app.py lines 59-73) -/

/-- Exceptions `requests.get` may raise, with the message `str(e)` carried
for the catch-all case. -/
inductive Exn where
  | connectionError
  | timeout
  | other (msg : List Char)
deriving DecidableEq

def exnMsg : Exn → List Char
  | .connectionError => "Connection error".data
  | .timeout => "Timeout".data
  | .other m => m

/-- An HTTP response: status code, optional `Location` header, body text,
and `r.url` (the effective URL after any redirect following). -/
structure Resp where
  status : Nat
  location : Option Url
  text : Url
  rurl : Url
deriving DecidableEq

/-- The network oracle: `req1` is `requests.get(..., allow_redirects=False)`,
`req2` is `requests.get(..., allow_redirects=True)`. -/
structure Net where
  req1 : Url → Except Exn Resp
  req2 : Url → Except Exn Resp

def redirectCodes : List Nat := [301, 302, 303, 307, 308]

/-- Result 4-tuple of `fetch`, plus a ghost count of HTTP requests issued. -/
structure FetchOut where
  status : Option Nat
  final : Url
  body : Option Url
  error : Option (List Char)
  reqs : Nat
deriving DecidableEq

def notFoundMarker (u : Url) : Bool := hasSub "/404".data u || hasSub "not-found".data u

def fetch (net : Net) (j : Url → Url → Url) (url domain : Url) : FetchOut :=
  match net.req1 url with
  | .error e => ⟨none, url, none, some (exnMsg e), 1⟩
  | .ok r =>
    if r.status ∈ redirectCodes then
      let final_url := urljoin j url (r.location.getD [])
      if notFoundMarker final_url then ⟨some 404, final_url, none, none, 1⟩
      else
        match net.req2 final_url with
        | .error e => ⟨none, url, none, some (exnMsg e), 2⟩
        | .ok r2 =>
          ⟨some r2.status, r2.rurl,
           if is_internal url domain && r2.status == 200 then some r2.text else none, none, 2⟩
    else
      ⟨some r.status, url,
       if is_internal url domain && r.status == 200 then some r.text else none, none, 1⟩

/-! ## Crawl state, `process` (lines 75-101) and `crawl` (lines 103-128) -/

/-- One result dictionary.  `rtype` is the `"type"` key
(`"internal"`/`"external"`). -/
structure Rec where
  source_page : Url
  url : Url
  status : Option Nat
  final_url : Url
  error : List Char
  rtype : List Char
deriving DecidableEq

/-- Shared crawl state.  `fetchLog` and `enqueueLog` are ghost logs: one
entry per `fetch` call issued and per `state["queue"].append` executed; they
record observable events and are written nowhere else. -/
structure St where
  results : List Rec
  visited : List Url
  queue : List (Url × Url)
  stop : Bool
  fetchLog : List Url
  enqueueLog : List Url
deriving DecidableEq

/-- Crawl environment: network and HTML oracles plus the configuration
(`MAX_LINKS` page cap and `THREADS`). -/
structure Env where
  net : Net
  j : Url → Url → Url
  soup : Url → List Url
  cap : Nat
  threads : Nat

def typeOf (u domain : Url) : List Char :=
  if is_internal u domain then "internal".data else "external".data

def finalField (u : Url) (f : FetchOut) : Url := if f.final ≠ u then f.final else []

/-- The fresh record appended when no record for `url` exists yet. -/
def newRec (source u : Url) (f : FetchOut) (domain : Url) : Rec :=
  ⟨source, u, f.status, finalField u f, f.error.getD [], typeOf u domain⟩

/-- `matched.update({...})`: only status, final_url and error change. -/
def setOutcome (r : Rec) (u : Url) (f : FetchOut) : Rec :=
  { r with status := f.status, final_url := finalField u f, error := f.error.getD [] }

/-- Update the first record whose `url` matches, if any. -/
def updateFirst (u : Url) (f : FetchOut) : List Rec → Option (List Rec)
  | [] => none
  | r :: rs =>
    if r.url = u then some (setOutcome r u f :: rs)
    else (updateFirst u f rs).map (r :: ·)

def placeholderRec (source link domain : Url) : Rec :=
  ⟨source, link, none, [], [], typeOf link domain⟩

def recordOutcome (u source : Url) (f : FetchOut) (domain : Url) (rs : List Rec) : List Rec :=
  match updateFirst u f rs with
  | some rs' => rs'
  | none => rs ++ [newRec source u f domain]

/-- The critical section of `process` (lines 84-101): record the fetch
outcome for `u`, then enqueue every still-unvisited discovered link with a
placeholder record. -/
def recordBlock (domain u source : Url) (f : FetchOut) (new_urls : List Url) (s : St) : St :=
  let start := (recordOutcome u source f domain s.results, s.queue, s.enqueueLog)
  let out := new_urls.foldl (fun acc link =>
    if link ∉ s.visited then
      (acc.1 ++ [placeholderRec u link domain], acc.2.1 ++ [(link, u)], acc.2.2 ++ [link])
    else acc) start
  { s with results := out.1, queue := out.2.1, enqueueLog := out.2.2 }

/-- `process(url, source, domain, state)`, one worker execution run as a
single sequential block (an admissible interleaving, since every shared
access in the source sits in its own `with state["lock"]` section). -/
def process (env : Env) (domain u source : Url) (s : St) : St :=
  if s.stop ∨ should_skip u = true then s
  else
    let f := fetch env.net env.j u domain
    let s1 := { s with fetchLog := s.fetchLog ++ [u] }
    let links := match f.body with
      | some html => if html ≠ [] ∧ is_internal u domain = true then get_links env.soup env.j u html else []
      | none => []
    let new_urls := links.filter (fun l => l ∉ s1.visited)
    recordBlock domain u source f new_urls s1

/-- The batch-drawing critical section (lines 109-116): pop queue entries
while the batch is under `THREADS * 2`, admitting each popped URL into
`visited` (and the batch) only if unvisited and under the page cap. -/
def drawBatch (cap bmax : Nat) :
    List (Url × Url) → List Url → List (Url × Url) →
    List (Url × Url) × List Url × List (Url × Url)
  | [], v, b => ([], v, b)
  | (u, src) :: q, v, b =>
    if b.length < bmax then
      if u ∉ v ∧ v.length < cap then drawBatch cap bmax q (v ++ [u]) (b ++ [(u, src)])
      else drawBatch cap bmax q v b
    else ((u, src) :: q, v, b)

def applyDraw (cap bmax : Nat) (s : St) : St :=
  let d := drawBatch cap bmax s.queue s.visited []
  { s with queue := d.1, visited := d.2.1 }

/-- The `while not state["stop"]` loop of `crawl`, executed with fuel; the
worker pool is run as a sequential fold over the batch (one admissible
interleaving of the thread pool). -/
def crawlLoop (env : Env) (domain : Url) : Nat → St → St
  | 0, s => s
  | fuel + 1, s =>
    if s.stop then s
    else
      let d := drawBatch env.cap (env.threads * 2) s.queue s.visited []
      let s1 := { s with queue := d.1, visited := d.2.1 }
      if d.2.2 = [] then
        if s1.queue = [] then s1 else crawlLoop env domain fuel s1
      else
        crawlLoop env domain fuel ((d.2.2).foldl (fun acc e => process env domain e.1 e.2 acc) s1)

/-- The state set up by the start handler (lines 152-171): empty results and
visited set, the queue seeded with `(url_input, url_input)`, stop cleared. -/
def initSt (start : Url) : St := ⟨[], [], [(start, start)], false, [], []⟩

/-- `crawl(start_url, state)`: the domain is the netloc of the start URL. -/
def crawl (env : Env) (start : Url) (fuel : Nat) : St :=
  crawlLoop env (urlparse start).netloc fuel (initSt start)

/-- One atomic mutation of the shared crawl state: either the batch-drawing
critical section or the record/enqueue critical section of some worker (with
arbitrary parameters, over-approximating every concurrent interleaving). -/
inductive Step (env : Env) (domain : Url) : St → St → Prop
  | draw (s : St) : Step env domain s (applyDraw env.cap (env.threads * 2) s)
  | record (u source : Url) (f : FetchOut) (new_urls : List Url) (s : St) :
      Step env domain s (recordBlock domain u source f new_urls s)

/-! ## Concrete environments used by witnesses and counterexamples -/

/-- A finite-table network oracle; URLs absent from the table get a
connection error. -/
def tblNet (t1 t2 : List (Url × Except Exn Resp)) : Net :=
  ⟨fun u => (((t1.find? (fun p => p.1 == u)).map Prod.snd).getD (.error .connectionError)),
   fun u => (((t2.find? (fun p => p.1 == u)).map Prod.snd).getD (.error .connectionError))⟩

/-- Oracle for `urljoin` used in concrete runs: treats every nonempty
relative reference as absolute. -/
def jAbs : Url → Url → Url := fun _ rel => rel

/-- A finite-table soup oracle; unknown bodies have no anchors. -/
def tblSoup (t : List (Url × List Url)) : Url → List Url :=
  fun h => ((t.find? (fun p => p.1 == h)).map Prod.snd).getD []

/-! ## Predicates used by the verification -/

/-- A character that survives `str.lower()` unchanged and is a scheme
character: the alphabet of extracted (already lowercased) schemes. -/
def lowChar (c : Char) : Prop := schemeChar c = true ∧ Char.toLower c = c

/-- Shape of a scheme produced by `splitScheme`. -/
def LowScheme (s : List Char) : Prop :=
  s ≠ [] ∧ headAlpha s = true ∧ ∀ c ∈ s, lowChar c

/-- `p` is a leading segment of `l` (as a proposition). -/
def Lead (p l : List Char) : Prop := ∃ t, p ++ t = l

/-- The segment after the last slash either has no `;`, or has material after
its first `;` — exactly the condition under which `_splitparams` followed by
rejoining is the identity. -/
def SemiOk (l : List Char) : Prop :=
  ';' ∈ afterLastSlash l → ((afterLastSlash l).dropWhile (· ≠ ';')).tail ≠ []

/-- A URL with no query and no fragment separators at all: the "normalized
form" (query string and fragment removed) that `normalize` produces. -/
def NoQF (u : Url) : Prop := '?' ∉ u ∧ '#' ∉ u

instance (u : Url) : Decidable (NoQF u) := by unfold NoQF; infer_instance

/-- The invariants enjoyed by `(scheme, netloc, path;params)` triples produced
by `urlparse`, which make un-parsing followed by re-parsing stable. -/
structure PInv (scheme netloc pp : List Char) : Prop where
  scheme_ok : scheme = [] ∨ LowScheme scheme
  netloc_ok : ∀ x ∈ netloc, netChar x = true
  pp_q : '?' ∉ pp
  pp_h : '#' ∉ pp
  semi : scheme ∈ usesParams → SemiOk pp
  nl_pp : netloc ≠ [] → ∀ x ∈ pp.take 1, x = '/'
  sf_pp : scheme = [] → netloc = [] → splitScheme pp = ([], pp)
  strip_pp : scheme = [] → netloc = [] → ∀ x ∈ pp.take 1, stripChar x = false
  clean_s : ∀ x ∈ scheme, removedChar x = false
  clean_n : ∀ x ∈ netloc, removedChar x = false
  clean_pp : ∀ x ∈ pp, removedChar x = false

/-- `rs` contains a record for `u` carrying the status and error of fetch
outcome `f`. -/
def hasOutcome (u : Url) (f : FetchOut) (rs : List Rec) : Prop :=
  ∃ r ∈ rs, r.url = u ∧ r.status = f.status ∧ r.error = f.error.getD []

/-! ## Concrete crawl scenarios -/

/-- C1 scenario: pages `/a` and `/b` both link `/L`, which is therefore
discovered twice before it is first drawn from the queue. -/
def net1 : Net := tblNet
  [("http://e/".data, .ok ⟨200, none, "S".data, []⟩),
   ("http://e/a".data, .ok ⟨200, none, "T".data, []⟩),
   ("http://e/b".data, .ok ⟨200, none, "T".data, []⟩),
   ("http://e/L".data, .ok ⟨200, none, [], []⟩)] []

def soup1 : Url → List Url := tblSoup
  [("S".data, ["http://e/a".data, "http://e/b".data]),
   ("T".data, ["http://e/L".data])]

def env1 : Env := ⟨net1, jAbs, soup1, 100, 10⟩

def run1 : St := crawl env1 "http://e/".data 6

/-- C2 scenario: every request fails with a connection error. -/
def env2 : Env := ⟨tblNet [] [], jAbs, tblSoup [], 100, 10⟩

def run2 : St := crawl env2 "http://e/".data 4

/-- C3 witness: a 301 whose Location resolves to a `/404` path. -/
def net3 : Net := tblNet
  [("http://e/p".data, .ok ⟨301, some "http://e/404".data, [], []⟩)] []

/-- C4 counterexample: the catch-all handler with `str(e) = ""`. -/
def netC4 : Net := ⟨fun _ => .error (.other []), fun _ => .error (.other [])⟩

/-- C4 witness environment. -/
def envC4 : Env := ⟨netC4, jAbs, tblSoup [], 100, 10⟩

/-- C5 witness: an internal URL answering 404 with a nonempty body. -/
def net5 : Net := tblNet [("http://x/p".data, .ok ⟨404, none, "BODY".data, []⟩)] []

/-- C6 witness environment (cap 2). -/
def env6 : Env := ⟨tblNet [] [], jAbs, tblSoup [], 2, 1⟩

/-- C7 scenario: the start URL carries a query string. -/
def net7 : Net := tblNet [("http://e/?q=1".data, .ok ⟨200, none, [], []⟩)] []

def env7 : Env := ⟨net7, jAbs, tblSoup [], 100, 10⟩

def run7 : St := crawl env7 "http://e/?q=1".data 4

/-- C7 witness environment. -/
def env7w : Env := ⟨tblNet [] [], jAbs, tblSoup [], 100, 10⟩

/-- C8 scenario: a start URL that is not a well-formed URL at all. -/
def env8 : Env := ⟨tblNet [] [], jAbs, tblSoup [], 100, 10⟩

def run8 : St := crawl env8 "ht tp://bad url".data 4

/-- C8 witness environment. -/
def env8w : Env := ⟨tblNet [] [], jAbs, tblSoup [], 3, 2⟩

/-- C10 witness: a 302 with no Location header, the second GET succeeding. -/
def net10 : Net := tblNet
  [("http://e/r".data, .ok ⟨302, none, [], []⟩)]
  [("http://e/r".data, .ok ⟨200, none, "B".data, "http://e/r".data⟩)]

end App

/-! # Theorems -/

namespace App

/-! ## List helper lemmas -/

theorem isLead_refl (l : List Char) : isLead l l = true := by
  induction l with
  | nil => rfl
  | cons a as ih => simp [isLead, ih]

theorem hasSub_of_isLead {p l : List Char} (h : isLead p l = true) :
    hasSub p l = true := by
  cases l with
  | nil => simpa [hasSub] using h
  | cons c tl => simp [hasSub, h]

theorem hasSub_cons_of_hasSub {p l : List Char} (c : Char)
    (h : hasSub p l = true) : hasSub p (c :: l) = true := by
  simp [hasSub, h]

theorem hasSub_append_left {p l : List Char} (pre : List Char)
    (h : hasSub p l = true) : hasSub p (pre ++ l) = true := by
  induction pre with
  | nil => simpa using h
  | cons c tl ih => simpa [List.cons_append] using hasSub_cons_of_hasSub c ih

/-! ## Character-class bridge lemmas -/

theorem char_eq_of_toNat {c d : Char} (h : c.toNat = d.toNat) : c = d :=
  Char.ext (UInt32.ext h)

theorem toNat_ofNat_of_lt {n : Nat} (h : n < 55296) : (Char.ofNat n).toNat = n := by
  rw [Char.ofNat, dif_pos (Or.inl h)]
  simp [Char.ofNatAux, Char.toNat, UInt32.toNat, BitVec.toNat_ofNatLt]

theorem isUpper_iff {c : Char} : c.isUpper = true ↔ 65 ≤ c.toNat ∧ c.toNat ≤ 90 := by
  simp only [Char.isUpper, Bool.and_eq_true, decide_eq_true_eq, UInt32.le_def, BitVec.le_def]
  exact Iff.rfl

theorem isLower_iff {c : Char} : c.isLower = true ↔ 97 ≤ c.toNat ∧ c.toNat ≤ 122 := by
  simp only [Char.isLower, Bool.and_eq_true, decide_eq_true_eq, UInt32.le_def, BitVec.le_def]
  exact Iff.rfl

theorem isDigit_iff {c : Char} : c.isDigit = true ↔ 48 ≤ c.toNat ∧ c.toNat ≤ 57 := by
  simp only [Char.isDigit, Bool.and_eq_true, decide_eq_true_eq, UInt32.le_def, BitVec.le_def]
  exact Iff.rfl

theorem toLower_of_isUpper {c : Char} (h : Char.isUpper c = true) :
    (Char.toLower c).toNat = c.toNat + 32 := by
  rw [Char.toLower, if_pos ⟨(isUpper_iff.1 h).1, (isUpper_iff.1 h).2⟩]
  exact toNat_ofNat_of_lt (by have := (isUpper_iff.1 h).2; omega)

theorem toLower_of_not_isUpper {c : Char} (h : ¬(65 ≤ c.toNat ∧ c.toNat ≤ 90)) :
    Char.toLower c = c := by
  rw [Char.toLower, if_neg h]

theorem schemeChar_toNat {c : Char} (h : schemeChar c = true) :
    (48 ≤ c.toNat ∧ c.toNat ≤ 57) ∨ (65 ≤ c.toNat ∧ c.toNat ≤ 90) ∨
    (97 ≤ c.toNat ∧ c.toNat ≤ 122) ∨ c.toNat = 43 ∨ c.toNat = 45 ∨ c.toNat = 46 := by
  simp only [schemeChar, Char.isAlpha, Bool.or_eq_true, beq_iff_eq] at h
  rcases h with ((((h | h) | h) | h) | h) | h
  · exact Or.inr (Or.inl (isUpper_iff.1 h))
  · exact Or.inr (Or.inr (Or.inl (isLower_iff.1 h)))
  · exact Or.inl (isDigit_iff.1 h)
  · subst h; right; right; right; left; rfl
  · subst h; right; right; right; right; left; rfl
  · subst h; right; right; right; right; right; rfl

theorem toNat_schemeChar {c : Char}
    (h : (48 ≤ c.toNat ∧ c.toNat ≤ 57) ∨ (65 ≤ c.toNat ∧ c.toNat ≤ 90) ∨
      (97 ≤ c.toNat ∧ c.toNat ≤ 122) ∨ c.toNat = 43 ∨ c.toNat = 45 ∨ c.toNat = 46) :
    schemeChar c = true := by
  simp only [schemeChar, Char.isAlpha, Bool.or_eq_true, beq_iff_eq]
  rcases h with h | h | h | h | h | h
  · exact Or.inl (Or.inl (Or.inl (Or.inr (isDigit_iff.2 h))))
  · exact Or.inl (Or.inl (Or.inl (Or.inl (Or.inl (isUpper_iff.2 h)))))
  · exact Or.inl (Or.inl (Or.inl (Or.inl (Or.inr (isLower_iff.2 h)))))
  · exact Or.inl (Or.inl (Or.inr (char_eq_of_toNat (show c.toNat = ('+' : Char).toNat by rw [h]; rfl))))
  · exact Or.inl (Or.inr (char_eq_of_toNat (show c.toNat = ('-' : Char).toNat by rw [h]; rfl)))
  · exact Or.inr (char_eq_of_toNat (show c.toNat = ('.' : Char).toNat by rw [h]; rfl))

theorem lowChar_of_schemeChar {c : Char} (h : schemeChar c = true) :
    lowChar (Char.toLower c) := by
  by_cases hu : Char.isUpper c = true
  · have h32 := toLower_of_isUpper hu
    have hr := isUpper_iff.1 hu
    constructor
    · exact toNat_schemeChar (by omega)
    · exact toLower_of_not_isUpper (by omega)
  · have hne : ¬(65 ≤ c.toNat ∧ c.toNat ≤ 90) := fun hc => hu (isUpper_iff.2 hc)
    rw [toLower_of_not_isUpper hne]
    exact ⟨h, toLower_of_not_isUpper hne⟩

theorem schemeChar_ranges {c : Char} (h : schemeChar c = true) :
    c ≠ ':' ∧ c ≠ '/' ∧ c ≠ '?' ∧ c ≠ '#' ∧ removedChar c = false ∧ stripChar c = false := by
  have hn := schemeChar_toNat h
  have e1 : (':' : Char).toNat = 58 := rfl
  have e2 : ('/' : Char).toNat = 47 := rfl
  have e3 : ('?' : Char).toNat = 63 := rfl
  have e4 : ('#' : Char).toNat = 35 := rfl
  have e5 : ('\t' : Char).toNat = 9 := rfl
  have e6 : ('\r' : Char).toNat = 13 := rfl
  have e7 : ('\n' : Char).toNat = 10 := rfl
  have hne : ∀ d : Char, c.toNat ≠ d.toNat → c ≠ d := fun d hd hc => hd (by rw [hc])
  refine ⟨hne _ (by omega), hne _ (by omega), hne _ (by omega), hne _ (by omega), ?_, ?_⟩
  · simp only [removedChar, Bool.or_eq_false_iff, beq_eq_false_iff_ne]
    exact ⟨⟨hne _ (by omega), hne _ (by omega)⟩, hne _ (by omega)⟩
  · simp only [stripChar, decide_eq_false_iff_not]
    omega

theorem headAlpha_map_toLower {l : List Char} (h : headAlpha l = true) :
    headAlpha (l.map Char.toLower) = true := by
  cases l with
  | nil => simp [headAlpha] at h
  | cons c t =>
    simp only [headAlpha, List.map_cons]
    simp only [headAlpha] at h
    by_cases hu : Char.isUpper c = true
    · have := toLower_of_isUpper hu
      have := isUpper_iff.1 hu
      simp only [Char.isAlpha, Bool.or_eq_true]
      exact Or.inr (isLower_iff.2 (by omega))
    · rw [toLower_of_not_isUpper (fun hc => hu (isUpper_iff.2 hc))]
      exact h

theorem removedChar_toLower {c : Char} (h : removedChar c = false) :
    removedChar (Char.toLower c) = false := by
  by_cases hu : Char.isUpper c = true
  · have h32 := toLower_of_isUpper hu
    have hr := isUpper_iff.1 hu
    have e5 : ('\t' : Char).toNat = 9 := rfl
    have e6 : ('\r' : Char).toNat = 13 := rfl
    have e7 : ('\n' : Char).toNat = 10 := rfl
    simp only [removedChar, Bool.or_eq_false_iff, beq_eq_false_iff_ne]
    have hne : ∀ d : Char, (Char.toLower c).toNat ≠ d.toNat → Char.toLower c ≠ d :=
      fun d hd hc => hd (by rw [hc])
    exact ⟨⟨hne _ (by omega), hne _ (by omega)⟩, hne _ (by omega)⟩
  · rwa [toLower_of_not_isUpper (fun hc => hu (isUpper_iff.2 hc))]

/-! ## takeWhile / dropWhile toolkit -/

theorem tw_all {p : Char → Bool} {l : List Char} (h : ∀ c ∈ l, p c = true) :
    l.takeWhile p = l := by
  induction l with
  | nil => rfl
  | cons a t ih =>
    rw [List.takeWhile_cons, if_pos (h a (List.mem_cons_self a t))]
    rw [ih (fun c hc => h c (List.mem_cons_of_mem a hc))]

theorem dw_all {p : Char → Bool} {l : List Char} (h : ∀ c ∈ l, p c = true) :
    l.dropWhile p = [] := by
  induction l with
  | nil => rfl
  | cons a t ih =>
    rw [List.dropWhile_cons, if_pos (h a (List.mem_cons_self a t))]
    exact ih (fun c hc => h c (List.mem_cons_of_mem a hc))

theorem tw_append {p : Char → Bool} {xs : List Char} (ys : List Char)
    (h : ∀ c ∈ xs, p c = true) :
    (xs ++ ys).takeWhile p = xs ++ ys.takeWhile p := by
  induction xs with
  | nil => rfl
  | cons a t ih =>
    rw [List.cons_append, List.takeWhile_cons, if_pos (h a (List.mem_cons_self a t)),
      ih (fun c hc => h c (List.mem_cons_of_mem a hc)), List.cons_append]

theorem dw_append {p : Char → Bool} {xs : List Char} (ys : List Char)
    (h : ∀ c ∈ xs, p c = true) :
    (xs ++ ys).dropWhile p = ys.dropWhile p := by
  induction xs with
  | nil => rfl
  | cons a t ih =>
    rw [List.cons_append, List.dropWhile_cons, if_pos (h a (List.mem_cons_self a t))]
    exact ih (fun c hc => h c (List.mem_cons_of_mem a hc))

theorem tw_stop {p : Char → Bool} {xs : List Char} {c : Char} (ys : List Char)
    (h : ∀ x ∈ xs, p x = true) (hc : p c = false) :
    (xs ++ c :: ys).takeWhile p = xs := by
  rw [tw_append _ h, List.takeWhile_cons, if_neg (by simp [hc]), List.append_nil]

theorem dw_stop {p : Char → Bool} {xs : List Char} {c : Char} (ys : List Char)
    (h : ∀ x ∈ xs, p x = true) (hc : p c = false) :
    (xs ++ c :: ys).dropWhile p = c :: ys := by
  rw [dw_append _ h, List.dropWhile_cons, if_neg (by simp [hc])]

theorem tw_append_stop {p : Char → Bool} {xs : List Char} (ys : List Char)
    (h : ∃ c ∈ xs, p c = false) :
    (xs ++ ys).takeWhile p = xs.takeWhile p := by
  induction xs with
  | nil => rcases h with ⟨c, hc, _⟩; cases hc
  | cons a t ih =>
    rcases h with ⟨c, hc, hpc⟩
    rw [List.cons_append, List.takeWhile_cons, List.takeWhile_cons]
    rcases List.mem_cons.1 hc with rfl | hct
    · rw [if_neg (by simp [hpc]), if_neg (by simp [hpc])]
    · by_cases hpa : p a = true
      · rw [if_pos hpa, if_pos hpa, ih ⟨c, hct, hpc⟩]
      · rw [if_neg hpa, if_neg hpa]

theorem mem_tw {p : Char → Bool} {l : List Char} {x : Char}
    (h : x ∈ l.takeWhile p) : x ∈ l := by
  induction l with
  | nil => cases h
  | cons a t ih =>
    rw [List.takeWhile_cons] at h
    by_cases hpa : p a = true
    · rw [if_pos hpa] at h
      rcases List.mem_cons.1 h with rfl | h'
      · exact List.mem_cons_self _ _
      · exact List.mem_cons_of_mem _ (ih h')
    · rw [if_neg hpa] at h; cases h

theorem all_tw {p : Char → Bool} {l : List Char} {x : Char}
    (h : x ∈ l.takeWhile p) : p x = true := by
  induction l with
  | nil => cases h
  | cons a t ih =>
    rw [List.takeWhile_cons] at h
    by_cases hpa : p a = true
    · rw [if_pos hpa] at h
      rcases List.mem_cons.1 h with rfl | h'
      · exact hpa
      · exact ih h'
    · rw [if_neg hpa] at h; cases h

theorem mem_dw {p : Char → Bool} {l : List Char} {x : Char}
    (h : x ∈ l.dropWhile p) : x ∈ l := by
  induction l with
  | nil => cases h
  | cons a t ih =>
    rw [List.dropWhile_cons] at h
    by_cases hpa : p a = true
    · rw [if_pos hpa] at h
      exact List.mem_cons_of_mem _ (ih h)
    · rw [if_neg hpa] at h; exact h

theorem dw_head {p : Char → Bool} {l t : List Char} {c : Char}
    (h : l.dropWhile p = c :: t) : p c = false := by
  induction l with
  | nil => cases h
  | cons a s ih =>
    rw [List.dropWhile_cons] at h
    by_cases hpa : p a = true
    · rw [if_pos hpa] at h; exact ih h
    · rw [if_neg hpa] at h
      cases h
      exact Bool.eq_false_iff.2 hpa

/-! ## splitOnce lemmas -/

theorem splitOnce_not_mem {sep : Char} {l : List Char} (h : sep ∉ l) :
    splitOnce sep l = (l, []) := by
  unfold splitOnce
  have hall : ∀ c ∈ l, (decide (c ≠ sep)) = true :=
    fun c hc => decide_eq_true (fun he => h (he ▸ hc))
  rw [tw_all hall, dw_all hall]
  rfl

theorem splitOnce_app {sep : Char} {xs : List Char} (ys : List Char) (h : sep ∉ xs) :
    splitOnce sep (xs ++ sep :: ys) = (xs, ys) := by
  unfold splitOnce
  have hall : ∀ c ∈ xs, (decide (c ≠ sep)) = true :=
    fun c hc => decide_eq_true (fun he => h (he ▸ hc))
  rw [tw_stop _ hall (by simp), dw_stop _ hall (by simp)]
  rfl

theorem splitOnce_recon {sep : Char} {l : List Char} (h : sep ∈ l) :
    (splitOnce sep l).1 ++ sep :: (splitOnce sep l).2 = l := by
  unfold splitOnce
  have hne : l.dropWhile (fun x => decide (x ≠ sep)) ≠ [] := by
    intro hnil
    have htd := List.takeWhile_append_dropWhile (fun x => decide (x ≠ sep)) l
    rw [hnil, List.append_nil] at htd
    have := all_tw (htd ▸ h)
    simp at this
  rcases hd : l.dropWhile (fun x => decide (x ≠ sep)) with _ | ⟨c, t⟩
  · exact absurd hd hne
  · have hc : c = sep := by
      have := dw_head hd
      simpa using this
    subst hc
    have htd := List.takeWhile_append_dropWhile (fun x => decide (x ≠ c)) l
    rw [hd] at htd
    simpa using htd

theorem not_mem_splitOnce_fst (sep : Char) (l : List Char) :
    sep ∉ (splitOnce sep l).1 := by
  intro h
  have := all_tw h
  simp at this

theorem mem_splitOnce_fst {sep : Char} {l : List Char} {x : Char}
    (h : x ∈ (splitOnce sep l).1) : x ∈ l := mem_tw h

theorem mem_splitOnce_snd {sep : Char} {l : List Char} {x : Char}
    (h : x ∈ (splitOnce sep l).2) : x ∈ l := by
  unfold splitOnce at h
  exact mem_dw (List.mem_of_mem_tail h)

/-! ## Lead (leading-segment) lemmas -/

theorem lead_refl (l : List Char) : Lead l l := ⟨[], List.append_nil l⟩

theorem mem_of_lead {p l : List Char} {x : Char} (h : Lead p l) (hx : x ∈ p) : x ∈ l := by
  rcases h with ⟨t, rfl⟩
  exact List.mem_append_left t hx

theorem take1_of_lead {p l : List Char} (h : Lead p l) : p = [] ∨ p.take 1 = l.take 1 := by
  rcases h with ⟨t, rfl⟩
  cases p with
  | nil => exact Or.inl rfl
  | cons a s => exact Or.inr (by simp)

theorem lead_takeWhile (p : Char → Bool) (l : List Char) : Lead (l.takeWhile p) l :=
  ⟨l.dropWhile p, List.takeWhile_append_dropWhile p l⟩

theorem lead_trans {a b c : List Char} (h1 : Lead a b) (h2 : Lead b c) : Lead a c := by
  rcases h1 with ⟨t1, rfl⟩
  rcases h2 with ⟨t2, rfl⟩
  exact ⟨t1 ++ t2, by rw [List.append_assoc]⟩

/-! ## afterLastSlash / upToLastSlash lemmas -/

theorem uts_als (l : List Char) : upToLastSlash l ++ afterLastSlash l = l := by
  unfold upToLastSlash afterLastSlash
  rw [← List.reverse_append, List.takeWhile_append_dropWhile, List.reverse_reverse]

theorem slash_not_mem_als (l : List Char) : '/' ∉ afterLastSlash l := by
  unfold afterLastSlash
  intro h
  have := all_tw (List.mem_reverse.1 h)
  simp at this

theorem als_no_slash {l : List Char} (h : '/' ∉ l) : afterLastSlash l = l := by
  unfold afterLastSlash
  have hall : ∀ c ∈ l.reverse, (decide (c ≠ '/')) = true :=
    fun c hc => decide_eq_true (fun he => h (he ▸ List.mem_reverse.1 hc))
  rw [tw_all hall, List.reverse_reverse]

theorem uts_no_slash {l : List Char} (h : '/' ∉ l) : upToLastSlash l = [] := by
  unfold upToLastSlash
  have hall : ∀ c ∈ l.reverse, (decide (c ≠ '/')) = true :=
    fun c hc => decide_eq_true (fun he => h (he ▸ List.mem_reverse.1 hc))
  rw [dw_all hall, List.reverse_nil]

theorem als_append {xs t : List Char} (h : '/' ∉ t) :
    afterLastSlash (xs ++ '/' :: t) = t := by
  unfold afterLastSlash
  rw [List.reverse_append, List.reverse_cons, List.append_assoc, List.singleton_append]
  have hall : ∀ c ∈ t.reverse, (decide (c ≠ '/')) = true :=
    fun c hc => decide_eq_true (fun he => h (he ▸ List.mem_reverse.1 hc))
  rw [tw_stop _ hall (by simp), List.reverse_reverse]

theorem uts_append {xs t : List Char} (h : '/' ∉ t) :
    upToLastSlash (xs ++ '/' :: t) = xs ++ ['/'] := by
  unfold upToLastSlash
  rw [List.reverse_append, List.reverse_cons, List.append_assoc, List.singleton_append]
  have hall : ∀ c ∈ t.reverse, (decide (c ≠ '/')) = true :=
    fun c hc => decide_eq_true (fun he => h (he ▸ List.mem_reverse.1 hc))
  rw [dw_stop _ hall (by simp)]
  simp

theorem mem_als {l : List Char} {x : Char} (h : x ∈ afterLastSlash l) : x ∈ l := by
  unfold afterLastSlash at h
  exact List.mem_reverse.1 (mem_tw (List.mem_reverse.1 h))

theorem als_append_left {xs t : List Char} (h : '/' ∈ t) :
    afterLastSlash (xs ++ t) = afterLastSlash t := by
  unfold afterLastSlash
  rw [List.reverse_append]
  rw [tw_append_stop _ ⟨'/', List.mem_reverse.2 h, by simp⟩]

theorem als_cons_slash (l : List Char) : afterLastSlash ('/' :: l) = afterLastSlash l := by
  by_cases h : '/' ∈ l
  · exact @als_append_left ['/'] _ h
  · rw [als_no_slash h]
    have heq : ('/' :: l) = [] ++ '/' :: l := rfl
    rw [heq, als_append h]

theorem uts_form {l : List Char} (h : '/' ∈ l) :
    ∃ xs, upToLastSlash l = xs ++ ['/'] := by
  rcases hd : l.reverse.dropWhile (fun x => decide (x ≠ '/')) with _ | ⟨c, t⟩
  · exfalso
    have htd := List.takeWhile_append_dropWhile (fun x => decide (x ≠ '/')) l.reverse
    rw [hd, List.append_nil] at htd
    have := all_tw (htd ▸ (List.mem_reverse.2 h))
    simp at this
  · have hc : c = '/' := by have := dw_head hd; simpa using this
    subst hc
    refine ⟨t.reverse, ?_⟩
    unfold upToLastSlash
    rw [hd, List.reverse_cons]

/-! ## Scheme-stage lemmas -/

theorem map_toLower_id {s : List Char} (h : ∀ c ∈ s, Char.toLower c = c) :
    s.map Char.toLower = s := by
  induction s with
  | nil => rfl
  | cons a t ih =>
    rw [List.map_cons, h a (List.mem_cons_self a t),
      ih (fun c hc => h c (List.mem_cons_of_mem a hc))]

theorem splitScheme_of_not_colon {l : List Char} (h : ':' ∉ l) :
    splitScheme l = ([], l) := by
  unfold splitScheme
  rw [if_neg (fun hc => h hc.1)]

theorem splitScheme_of_headAlpha_false {l : List Char} (h : headAlpha l = false) :
    splitScheme l = ([], l) := by
  unfold splitScheme
  rw [if_neg (fun hc => by rw [h] at hc; exact Bool.false_ne_true hc.2.2.1)]

theorem splitScheme_valid {s : List Char} (u1 : List Char) (hs : LowScheme s) :
    splitScheme (s ++ ':' :: u1) = (s, u1) := by
  obtain ⟨hne, hha, hlc⟩ := hs
  have hnecolon : ∀ c ∈ s, (decide (c ≠ ':')) = true := fun c hc =>
    decide_eq_true ((schemeChar_ranges (hlc c hc).1).1)
  have htw : (s ++ ':' :: u1).takeWhile (· ≠ ':') = s := tw_stop _ hnecolon (by simp)
  have hdw : (s ++ ':' :: u1).dropWhile (· ≠ ':') = ':' :: u1 := dw_stop _ hnecolon (by simp)
  unfold splitScheme
  rw [htw, hdw]
  rw [if_pos ?hcond]
  · rw [map_toLower_id (fun c hc => (hlc c hc).2)]
    rfl
  case hcond =>
    refine ⟨List.mem_append_right s (List.mem_cons_self _ _), hne, ?_, ?_⟩
    · cases s with
      | nil => exact absurd rfl hne
      | cons a t => simpa [headAlpha] using hha
    · exact List.all_eq_true.2 (fun c hc => (hlc c hc).1)

theorem splitScheme_fst_cases (l : List Char) :
    splitScheme l = ([], l) ∨ LowScheme (splitScheme l).1 := by
  unfold splitScheme
  by_cases hc : ':' ∈ l ∧ l.takeWhile (· ≠ ':') ≠ [] ∧ headAlpha l = true ∧
      (l.takeWhile (· ≠ ':')).all schemeChar
  · rw [if_pos hc]
    right
    obtain ⟨_, hne, hha, hall⟩ := hc
    refine ⟨by simpa using hne, ?_, ?_⟩
    · apply headAlpha_map_toLower
      rcases lead_takeWhile (fun c => decide (c ≠ ':')) l with ⟨r, hr⟩
      cases htw2 : l.takeWhile (fun c => decide (c ≠ ':')) with
      | nil => exact absurd htw2 hne
      | cons a t =>
        rw [htw2] at hr
        rw [← hr, List.cons_append] at hha
        simpa [headAlpha] using hha
    · intro c hcm
      rcases List.mem_map.1 hcm with ⟨y, hy, rfl⟩
      exact lowChar_of_schemeChar (List.all_eq_true.1 hall y hy)
  · rw [if_neg hc]
    exact Or.inl rfl

theorem mem_splitScheme_snd {l : List Char} {x : Char}
    (h : x ∈ (splitScheme l).2) : x ∈ l := by
  unfold splitScheme at h
  by_cases hc : ':' ∈ l ∧ l.takeWhile (· ≠ ':') ≠ [] ∧ headAlpha l = true ∧
      (l.takeWhile (· ≠ ':')).all schemeChar
  · rw [if_pos hc] at h
    exact mem_dw (List.mem_of_mem_tail h)
  · rw [if_neg hc] at h
    exact h

theorem splitScheme_fst_clean {l : List Char} (hc : ∀ x ∈ l, removedChar x = false) :
    ∀ x ∈ (splitScheme l).1, removedChar x = false := by
  intro x hx
  unfold splitScheme at hx
  by_cases hcond : ':' ∈ l ∧ l.takeWhile (· ≠ ':') ≠ [] ∧ headAlpha l = true ∧
      (l.takeWhile (· ≠ ':')).all schemeChar
  · rw [if_pos hcond] at hx
    rcases List.mem_map.1 hx with ⟨y, hy, rfl⟩
    exact removedChar_toLower (hc y (mem_tw hy))
  · rw [if_neg hcond] at hx
    cases hx

theorem splitScheme_fail_of_lead {w p : List Char} (hw : splitScheme w = ([], w))
    (hp : Lead p w) : splitScheme p = ([], p) := by
  by_cases hcp : ':' ∈ p
  · rcases hp with ⟨t, rfl⟩
    have htw : (p ++ t).takeWhile (· ≠ ':') = p.takeWhile (· ≠ ':') :=
      tw_append_stop _ ⟨':', hcp, by simp⟩
    unfold splitScheme at hw ⊢
    by_cases hc : ':' ∈ p ∧ p.takeWhile (· ≠ ':') ≠ [] ∧ headAlpha p = true ∧
        (p.takeWhile (· ≠ ':')).all schemeChar
    · exfalso
      have hcw : ':' ∈ p ++ t ∧ (p ++ t).takeWhile (· ≠ ':') ≠ [] ∧
          headAlpha (p ++ t) = true ∧ ((p ++ t).takeWhile (· ≠ ':')).all schemeChar := by
        refine ⟨List.mem_append_left t hcp, by rw [htw]; exact hc.2.1, ?_, by rw [htw]; exact hc.2.2.2⟩
        cases p with
        | nil => exact absurd hcp (by simp)
        | cons a s => simpa [headAlpha] using hc.2.2.1
      rw [if_pos hcw] at hw
      have : (p ++ t).takeWhile (· ≠ ':') ≠ [] := by rw [htw]; exact hc.2.1
      have hmap := congrArg Prod.fst hw
      simp only at hmap
      rcases hptw : (p ++ t).takeWhile (· ≠ ':') with _ | ⟨a, s⟩
      · exact this hptw
      · rw [hptw] at hmap; cases hmap
    · rw [if_neg hc]
  · exact splitScheme_of_not_colon hcp

/-! ## Params-stage lemmas -/

theorem joinParams_nil (p : List Char) : joinParams p [] = p := by
  unfold joinParams
  rw [if_neg (by simp)]

theorem joinParams_ne {p par : List Char} (h : par ≠ []) :
    joinParams p par = p ++ ';' :: par := by
  unfold joinParams
  rw [if_pos h]

theorem semiOk_of_no_semi {l : List Char} (h : ';' ∉ afterLastSlash l) : SemiOk l :=
  fun hm => absurd hm h

theorem semiOk_no_slash_shape {T D : List Char}
    (hT : ∀ x ∈ T, (decide (x ≠ ';')) = true) (hslash : '/' ∉ T ++ ';' :: D)
    (hD : D ≠ []) : SemiOk (T ++ ';' :: D) := by
  unfold SemiOk
  rw [als_no_slash hslash, dw_stop _ hT (by simp)]
  intro _
  simpa using hD

theorem semiOk_of_shape {xs T D : List Char}
    (hT : ∀ x ∈ T, (decide (x ≠ ';')) = true) (hslash : '/' ∉ T ++ ';' :: D)
    (hD : D ≠ []) : SemiOk (xs ++ '/' :: (T ++ ';' :: D)) := by
  unfold SemiOk
  rw [als_append hslash, dw_stop _ hT (by simp)]
  intro _
  simpa using hD

theorem parseParams_join_lead (scheme l : List Char) :
    Lead (joinParams (parseParams scheme l).1 (parseParams scheme l).2) l := by
  unfold parseParams
  by_cases hc : scheme ∈ usesParams ∧ ';' ∈ l
  · rw [if_pos hc]
    unfold splitParams
    by_cases hsl : '/' ∈ l
    · rw [if_pos hsl]
      by_cases hss : ';' ∈ afterLastSlash l
      · rw [if_pos hss]
        dsimp only
        have hrec : (afterLastSlash l).takeWhile (· ≠ ';') ++
            ';' :: ((afterLastSlash l).dropWhile (· ≠ ';')).tail = afterLastSlash l :=
          splitOnce_recon hss
        by_cases hdt : ((afterLastSlash l).dropWhile (· ≠ ';')).tail = []
        · rw [hdt, joinParams_nil]
          rw [hdt] at hrec
          refine ⟨[';'], ?_⟩
          rw [List.append_assoc, hrec, uts_als]
        · rw [joinParams_ne hdt, List.append_assoc, hrec, uts_als]
          exact lead_refl l
      · rw [if_neg hss]
        dsimp only
        rw [joinParams_nil]
        exact lead_refl l
    · rw [if_neg hsl]
      dsimp only
      have hrec : l.takeWhile (· ≠ ';') ++ ';' :: (l.dropWhile (· ≠ ';')).tail = l :=
        splitOnce_recon hc.2
      by_cases hdt : (l.dropWhile (· ≠ ';')).tail = []
      · rw [hdt, joinParams_nil]
        rw [hdt] at hrec
        exact ⟨[';'], hrec⟩
      · rw [joinParams_ne hdt, hrec]
        exact lead_refl l
  · rw [if_neg hc]
    dsimp only
    rw [joinParams_nil]
    exact lead_refl l

theorem parseParams_semiOk (scheme l : List Char) (hup : scheme ∈ usesParams) :
    SemiOk (joinParams (parseParams scheme l).1 (parseParams scheme l).2) := by
  unfold parseParams
  by_cases hc : scheme ∈ usesParams ∧ ';' ∈ l
  · rw [if_pos hc]
    unfold splitParams
    by_cases hsl : '/' ∈ l
    · rw [if_pos hsl]
      by_cases hss : ';' ∈ afterLastSlash l
      · rw [if_pos hss]
        dsimp only
        obtain ⟨xs, hxs⟩ := uts_form hsl
        have hT : ∀ x ∈ (afterLastSlash l).takeWhile (· ≠ ';'), (decide (x ≠ ';')) = true :=
          fun x hx => all_tw hx
        have htwno : '/' ∉ (afterLastSlash l).takeWhile (· ≠ ';') :=
          fun hm => slash_not_mem_als l (mem_tw hm)
        by_cases hdt : ((afterLastSlash l).dropWhile (· ≠ ';')).tail = []
        · rw [hdt, joinParams_nil, hxs, List.append_assoc, List.singleton_append]
          apply semiOk_of_no_semi
          rw [als_append htwno]
          intro hm
          have := all_tw hm
          simp at this
        · rw [joinParams_ne hdt]
          have hshape : upToLastSlash l ++ (afterLastSlash l).takeWhile (· ≠ ';') ++
              ';' :: ((afterLastSlash l).dropWhile (· ≠ ';')).tail =
              xs ++ '/' :: ((afterLastSlash l).takeWhile (· ≠ ';') ++
                ';' :: ((afterLastSlash l).dropWhile (· ≠ ';')).tail) := by
            rw [hxs]
            simp [List.append_assoc]
          rw [hshape]
          apply semiOk_of_shape hT _ hdt
          intro hm
          rcases List.mem_append.1 hm with hm | hm
          · exact htwno hm
          · rcases List.mem_cons.1 hm with hm | hm
            · cases hm
            · exact slash_not_mem_als l (mem_dw (List.mem_of_mem_tail hm))
      · rw [if_neg hss]
        dsimp only
        rw [joinParams_nil]
        exact semiOk_of_no_semi hss
    · rw [if_neg hsl]
      dsimp only
      have hT : ∀ x ∈ l.takeWhile (· ≠ ';'), (decide (x ≠ ';')) = true :=
        fun x hx => all_tw hx
      by_cases hdt : (l.dropWhile (· ≠ ';')).tail = []
      · rw [hdt, joinParams_nil]
        apply semiOk_of_no_semi
        rw [als_no_slash (fun hm => hsl (mem_tw hm))]
        intro hm
        have := all_tw hm
        simp at this
      · rw [joinParams_ne hdt]
        apply semiOk_no_slash_shape hT _ hdt
        intro hm
        rcases List.mem_append.1 hm with hm | hm
        · exact hsl (mem_tw hm)
        · rcases List.mem_cons.1 hm with hm | hm
          · cases hm
          · exact hsl (mem_dw (List.mem_of_mem_tail hm))
  · rw [if_neg hc]
    dsimp only
    rw [joinParams_nil]
    exact fun hsem => absurd (mem_als hsem) (fun hl => hc ⟨hup, hl⟩)

theorem parseParams_id {scheme l : List Char} (h : scheme ∈ usesParams → SemiOk l) :
    joinParams (parseParams scheme l).1 (parseParams scheme l).2 = l := by
  unfold parseParams
  by_cases hc : scheme ∈ usesParams ∧ ';' ∈ l
  · rw [if_pos hc]
    have hso := h hc.1
    unfold splitParams
    by_cases hsl : '/' ∈ l
    · rw [if_pos hsl]
      by_cases hss : ';' ∈ afterLastSlash l
      · rw [if_pos hss]
        dsimp only
        have hrec : (afterLastSlash l).takeWhile (· ≠ ';') ++
            ';' :: ((afterLastSlash l).dropWhile (· ≠ ';')).tail = afterLastSlash l :=
          splitOnce_recon hss
        have hdt := hso hss
        rw [joinParams_ne hdt, List.append_assoc, hrec, uts_als]
      · rw [if_neg hss]
        dsimp only
        rw [joinParams_nil]
    · rw [if_neg hsl]
      dsimp only
      have hss : ';' ∈ afterLastSlash l := by rw [als_no_slash hsl]; exact hc.2
      have hdt := hso hss
      rw [als_no_slash hsl] at hdt
      have hrec : l.takeWhile (· ≠ ';') ++ ';' :: (l.dropWhile (· ≠ ';')).tail = l :=
        splitOnce_recon hc.2
      rw [joinParams_ne hdt, hrec]
  · rw [if_neg hc]
    dsimp only
    rw [joinParams_nil]


/-! ## cleanUrl and netChar lemmas -/

theorem stripChar_of_removedChar {c : Char} (h : removedChar c = true) :
    stripChar c = true := by
  simp only [removedChar, Bool.or_eq_true, beq_iff_eq] at h
  rcases h with (h | h) | h <;> subst h <;> rfl

theorem cleanUrl_id {l : List Char} (hh : ∀ x ∈ l.take 1, stripChar x = false)
    (hc : ∀ x ∈ l, removedChar x = false) : cleanUrl l = l := by
  unfold cleanUrl
  have hdw : l.dropWhile stripChar = l := by
    cases l with
    | nil => rfl
    | cons a t =>
      rw [List.dropWhile_cons, if_neg]
      simp [hh a (by simp)]
  rw [hdw, List.filter_eq_self.2 (fun a ha => by simp [hc a ha])]

theorem mem_cleanUrl {l : List Char} {x : Char} (h : x ∈ cleanUrl l) : x ∈ l := by
  unfold cleanUrl at h
  exact mem_dw (List.mem_of_mem_filter h)

theorem cleanUrl_clean (l : List Char) : ∀ x ∈ cleanUrl l, removedChar x = false := by
  intro x hx
  unfold cleanUrl at hx
  have := List.of_mem_filter hx
  simpa using this

theorem cleanUrl_head (l : List Char) : ∀ x ∈ (cleanUrl l).take 1, stripChar x = false := by
  unfold cleanUrl
  rcases hd : l.dropWhile stripChar with _ | ⟨c, t⟩
  · simp
  · have hcs : stripChar c = false := dw_head hd
    have hcr : removedChar c = false := by
      by_contra hcon
      rw [Bool.not_eq_false] at hcon
      rw [stripChar_of_removedChar hcon] at hcs
      cases hcs
    rw [List.filter_cons_of_pos (by simp [hcr])]
    intro x hx
    rcases List.mem_cons.1 (List.take_subset 1 _ hx) with rfl | hx2
    · exact hcs
    · rw [List.take_succ_cons] at hx
      rcases List.mem_cons.1 hx with rfl | hx3
      · exact hcs
      · simp at hx3

theorem netChar_false_cases {c : Char} (h : netChar c = false) :
    c = '/' ∨ c = '?' ∨ c = '#' := by
  simp only [netChar, Bool.and_eq_false_iff, decide_eq_false_iff_not, Decidable.not_not] at h
  tauto

/-! ## The parse invariant -/

theorem parsePQF_inv {scheme netloc w2 : List Char}
    (hs : scheme = [] ∨ LowScheme scheme)
    (hn : ∀ x ∈ netloc, netChar x = true)
    (hcs : ∀ x ∈ scheme, removedChar x = false)
    (hcn : ∀ x ∈ netloc, removedChar x = false)
    (hcw : ∀ x ∈ w2, removedChar x = false)
    (hhead : netloc ≠ [] → ∀ x ∈ w2.take 1, x = '/' ∨ x = '?' ∨ x = '#')
    (hsf : scheme = [] → netloc = [] → splitScheme w2 = ([], w2))
    (hstrip : scheme = [] → netloc = [] → ∀ x ∈ w2.take 1, stripChar x = false) :
    PInv scheme netloc
      (joinParams (parsePQF scheme netloc w2).path (parsePQF scheme netloc w2).params) := by
  show PInv scheme netloc
    (joinParams
      (parseParams scheme ((w2.takeWhile (· ≠ '#')).takeWhile (· ≠ '?'))).1
      (parseParams scheme ((w2.takeWhile (· ≠ '#')).takeWhile (· ≠ '?'))).2)
  have hlead4 := parseParams_join_lead scheme ((w2.takeWhile (· ≠ '#')).takeWhile (· ≠ '?'))
  have hlead2 : Lead
      (joinParams
        (parseParams scheme ((w2.takeWhile (· ≠ '#')).takeWhile (· ≠ '?'))).1
        (parseParams scheme ((w2.takeWhile (· ≠ '#')).takeWhile (· ≠ '?'))).2) w2 :=
    lead_trans hlead4 (lead_trans (lead_takeWhile _ _) (lead_takeWhile _ _))
  have hppq : '?' ∉ joinParams
      (parseParams scheme ((w2.takeWhile (· ≠ '#')).takeWhile (· ≠ '?'))).1
      (parseParams scheme ((w2.takeWhile (· ≠ '#')).takeWhile (· ≠ '?'))).2 := by
    intro hq
    have := all_tw (mem_of_lead hlead4 hq)
    simp at this
  have hpph : '#' ∉ joinParams
      (parseParams scheme ((w2.takeWhile (· ≠ '#')).takeWhile (· ≠ '?'))).1
      (parseParams scheme ((w2.takeWhile (· ≠ '#')).takeWhile (· ≠ '?'))).2 := by
    intro hq
    have := all_tw (mem_tw (mem_of_lead hlead4 hq))
    simp at this
  refine ⟨hs, hn, hppq, hpph, fun hup => parseParams_semiOk _ _ hup, ?_, ?_, ?_, hcs, hcn, ?_⟩
  · intro hnl x hx
    rcases take1_of_lead hlead2 with hpp | heq
    · rw [hpp] at hx; simp at hx
    · have hxw2 := hhead hnl x (heq ▸ hx)
      have hxpp := List.take_subset 1 _ hx
      rcases hxw2 with rfl | rfl | rfl
      · rfl
      · exact absurd hxpp hppq
      · exact absurd hxpp hpph
  · exact fun h1 h2 => splitScheme_fail_of_lead (hsf h1 h2) hlead2
  · intro h1 h2 x hx
    rcases take1_of_lead hlead2 with hpp | heq
    · rw [hpp] at hx; simp at hx
    · exact hstrip h1 h2 x (heq ▸ hx)
  · exact fun x hx => hcw x (mem_of_lead hlead2 hx)

theorem urlparse_core_inv (u : Url) :
    PInv (urlparse u).scheme (urlparse u).netloc
      (joinParams (urlparse u).path (urlparse u).params) := by
  unfold urlparse parseTail
  have hsch := splitScheme_fst_cases (cleanUrl u)
  have hs : (splitScheme (cleanUrl u)).1 = [] ∨ LowScheme (splitScheme (cleanUrl u)).1 := by
    rcases hsch with h | h
    · left; rw [h]
    · right; exact h
  have hcs : ∀ x ∈ (splitScheme (cleanUrl u)).1, removedChar x = false :=
    splitScheme_fst_clean (cleanUrl_clean u)
  have hsndclean : ∀ x ∈ (splitScheme (cleanUrl u)).2, removedChar x = false :=
    fun x hx => cleanUrl_clean u x (mem_splitScheme_snd hx)
  by_cases htk : (splitScheme (cleanUrl u)).2.take 2 = ['/', '/']
  · rw [if_pos htk]
    apply parsePQF_inv hs
    · exact fun x hx => all_tw hx
    · exact hcs
    · exact fun x hx => hsndclean x (List.drop_subset 2 _ (mem_tw hx))
    · exact fun x hx => hsndclean x (List.drop_subset 2 _ (mem_dw hx))
    · intro _ x hx
      rcases hd : ((splitScheme (cleanUrl u)).2.drop 2).dropWhile netChar with _ | ⟨c, t⟩
      · rw [hd] at hx; simp at hx
      · rw [hd] at hx
        rcases List.mem_cons.1 (List.take_subset 1 _ hx) with rfl | hx2
        · exact netChar_false_cases (dw_head hd)
        · rw [List.take_succ_cons] at hx
          rcases List.mem_cons.1 hx with rfl | hx3
          · exact netChar_false_cases (dw_head hd)
          · simp at hx3
    · intro _ _
      rcases hd : ((splitScheme (cleanUrl u)).2.drop 2).dropWhile netChar with _ | ⟨c, t⟩
      · exact splitScheme_of_not_colon (by simp)
      · rcases netChar_false_cases (dw_head hd) with rfl | rfl | rfl
        · exact splitScheme_of_headAlpha_false rfl
        · exact splitScheme_of_headAlpha_false rfl
        · exact splitScheme_of_headAlpha_false rfl
    · intro _ _ x hx
      rcases hd : ((splitScheme (cleanUrl u)).2.drop 2).dropWhile netChar with _ | ⟨c, t⟩
      · rw [hd] at hx; simp at hx
      · rw [hd] at hx
        have hcx : x = c := by
          rcases List.mem_cons.1 (List.take_subset 1 _ hx) with rfl | hx2
          · rfl
          · rw [List.take_succ_cons] at hx
            rcases List.mem_cons.1 hx with rfl | hx3
            · rfl
            · simp at hx3
        subst hcx
        rcases netChar_false_cases (dw_head hd) with rfl | rfl | rfl <;> rfl
  · rw [if_neg htk]
    apply parsePQF_inv hs
    · exact fun x hx => absurd hx (List.not_mem_nil x)
    · exact hcs
    · exact fun x hx => absurd hx (List.not_mem_nil x)
    · exact hsndclean
    · exact fun hne => absurd rfl hne
    · intro h1 _
      rcases hsch with h | h
      · have h2 : (splitScheme (cleanUrl u)).2 = cleanUrl u := by rw [h]
        rw [h2]
        exact h
      · exact absurd h1 h.1
    · intro h1 _
      rcases hsch with h | h
      · have h2 : (splitScheme (cleanUrl u)).2 = cleanUrl u := by rw [h]
        rw [h2]
        exact cleanUrl_head u
      · exact absurd h1 h.1

/-! ## Un-parse / re-parse stability -/

theorem urlunparse_core (c : Parts) (hq : c.query = []) (hf : c.fragment = []) :
    urlunparse c = unparseCore c.scheme c.netloc (joinParams c.path c.params) := by
  unfold urlunparse unparseCore coreU1
  rw [hq, hf]
  dsimp only
  rw [if_neg (fun hh => hh rfl), if_neg (fun hh => hh rfl)]

theorem normalize_eq (u : Url) :
    normalize u = unparseCore (urlparse u).scheme (urlparse u).netloc
      (joinParams (urlparse u).path (urlparse u).params) := by
  unfold normalize
  exact urlunparse_core _ rfl rfl

theorem mem_unparseCore {s n pp : List Char} {x : Char} (h : x ∈ unparseCore s n pp) :
    x ∈ s ∨ x ∈ n ∨ x ∈ pp ∨ x = '/' ∨ x = ':' := by
  unfold unparseCore coreU1 at h
  split_ifs at h <;> (try simp only [List.mem_append, List.mem_cons] at h) <;> tauto

theorem unparseCore_cleanUrl {s n pp : List Char} (hinv : PInv s n pp) :
    cleanUrl (unparseCore s n pp) = unparseCore s n pp := by
  apply cleanUrl_id
  · intro x hx
    by_cases hs : s = []
    · subst hs
      unfold unparseCore coreU1 at hx
      rw [if_neg (fun hh => hh rfl)] at hx
      by_cases hn : n = []
      · rw [if_neg (by simp [hn])] at hx
        exact hinv.strip_pp rfl hn x hx
      · rw [if_pos (Or.inl hn)] at hx
        rw [List.take_succ_cons, List.take_zero] at hx
        rcases List.mem_cons.1 hx with rfl | hx2
        · rfl
        · simp at hx2
    · rcases hinv.scheme_ok with h | h
      · exact absurd h hs
      · obtain ⟨hne, hha, hlc⟩ := h
        cases hsc : s with
        | nil => exact absurd hsc hne
        | cons a t =>
          subst hsc
          unfold unparseCore at hx
          rw [if_pos hs] at hx
          have hx3 : x ∈ List.take 1 (a :: (t ++ ':' :: coreU1 (a :: t) n pp)) := hx
          rw [List.take_succ_cons, List.take_zero] at hx3
          rcases List.mem_cons.1 hx3 with rfl | hx2
          · exact (schemeChar_ranges (hlc x (List.mem_cons_self _ _)).1).2.2.2.2.2
          · simp at hx2
  · intro x hx
    rcases mem_unparseCore hx with h | h | h | rfl | rfl
    · exact hinv.clean_s x h
    · exact hinv.clean_n x h
    · exact hinv.clean_pp x h
    · rfl
    · rfl

theorem unparseCore_splitScheme {s n pp : List Char} (hinv : PInv s n pp) :
    splitScheme (unparseCore s n pp) = (s, coreU1 s n pp) := by
  by_cases hs : s = []
  · subst hs
    unfold unparseCore
    rw [if_neg (fun hh => hh rfl)]
    unfold coreU1
    by_cases hn : n = []
    · rw [if_neg (by simp [hn])]
      exact hinv.sf_pp rfl hn
    · rw [if_pos (Or.inl hn)]
      exact splitScheme_of_headAlpha_false rfl
  · rcases hinv.scheme_ok with h | h
    · exact absurd h hs
    · unfold unparseCore
      rw [if_pos hs]
      exact splitScheme_valid _ h


theorem semiOk_nil : SemiOk [] := fun h => absurd (mem_als h) (List.not_mem_nil ';')

theorem tw_nil_dw {p : Char → Bool} {l : List Char} (h : l.takeWhile p = []) :
    l.dropWhile p = l := by
  cases l with
  | nil => rfl
  | cons a t =>
    rw [List.takeWhile_cons] at h
    by_cases hp : p a = true
    · rw [if_pos hp] at h; cases h
    · rw [List.dropWhile_cons, if_neg hp]

theorem take1_shape {pp : List Char} (h : pp.take 1 = ['/']) : ∃ t, pp = '/' :: t := by
  cases pp with
  | nil => cases h
  | cons a t =>
    rw [List.take_succ_cons, List.take_zero] at h
    cases h
    exact ⟨t, rfl⟩

theorem nl_pp_cases {s n pp : List Char} (hinv : PInv s n pp) (hn : n ≠ []) :
    pp = [] ∨ pp.take 1 = ['/'] := by
  cases pp with
  | nil => exact Or.inl rfl
  | cons a t =>
    right
    rw [List.take_succ_cons, List.take_zero]
    have ha := hinv.nl_pp hn a (by
      rw [List.take_succ_cons, List.take_zero]
      exact List.mem_cons_self _ _)
    rw [ha]

theorem semiOk_cons_slash {pp : List Char} (h : SemiOk pp) : SemiOk ('/' :: pp) := by
  unfold SemiOk at h ⊢
  rw [als_cons_slash]
  exact h

theorem semiOk_of_append_slash {xs rest : List Char} (hr : '/' ∈ rest)
    (h : SemiOk (xs ++ rest)) : SemiOk rest := by
  unfold SemiOk at h ⊢
  rw [als_append_left hr] at h
  exact h

theorem parsePQF_simple {s N X : List Char} (hh : '#' ∉ X) (hq : '?' ∉ X) :
    parsePQF s N X = ⟨s, N, (parseParams s X).1, (parseParams s X).2, [], []⟩ := by
  unfold parsePQF
  rw [splitOnce_not_mem hh]
  dsimp only
  rw [splitOnce_not_mem hq]

theorem unparse_of_parsePQF {s N X : List Char} (hh : '#' ∉ X) (hq : '?' ∉ X)
    (hsemi : s ∈ usesParams → SemiOk X) :
    unparseCore (parsePQF s N X).scheme (parsePQF s N X).netloc
      (joinParams (parsePQF s N X).path (parsePQF s N X).params) = unparseCore s N X := by
  rw [parsePQF_simple hh hq]
  dsimp only
  rw [parseParams_id hsemi]

theorem unparseCore_congr {s n1 pp1 n2 pp2 : List Char}
    (h : coreU1 s n1 pp1 = coreU1 s n2 pp2) :
    unparseCore s n1 pp1 = unparseCore s n2 pp2 := by
  unfold unparseCore
  rw [h]

theorem take2_split {pp : List Char} (h : pp.take 2 = ['/', '/']) :
    pp = '/' :: '/' :: pp.drop 2 := by
  have := List.take_append_drop 2 pp
  rw [h] at this
  exact this.symm


theorem parseTail_unparse {s n pp : List Char} (hinv : PInv s n pp) (hnb : ¬coreBad s n pp) :
    unparseCore (parseTail s (coreU1 s n pp)).scheme (parseTail s (coreU1 s n pp)).netloc
      (joinParams (parseTail s (coreU1 s n pp)).path (parseTail s (coreU1 s n pp)).params)
      = unparseCore s n pp := by
  have hph := hinv.pp_h
  have hpq := hinv.pp_q
  by_cases hcond : n ≠ [] ∨ (s ≠ [] ∧ s ∈ usesNetloc ∧ pp.take 2 ≠ ['/', '/'])
  · by_cases hins : pp ≠ [] ∧ pp.take 1 ≠ ['/']
    · -- LEAF 1: '//' restored with a '/' inserted before pp; forces n = []
      have hn : n = [] := by
        by_contra hnne
        rcases nl_pp_cases hinv hnne with h | h
        · exact hins.1 h
        · exact hins.2 h
      subst hn
      have hc2 : s ≠ [] ∧ s ∈ usesNetloc ∧ pp.take 2 ≠ ['/', '/'] := by
        rcases hcond with h | h
        · exact absurd rfl h
        · exact h
      have hcore : coreU1 s [] pp = '/' :: '/' :: '/' :: pp := by
        unfold coreU1
        rw [if_pos hcond, if_pos hins]
        rfl
      rw [hcore]
      unfold parseTail
      rw [if_pos (by rfl)]
      have hdrop : (('/' :: '/' :: '/' :: pp).drop 2) = '/' :: pp := by rfl
      rw [hdrop]
      have htwn : ('/' :: pp).takeWhile netChar = [] := by
        rw [List.takeWhile_cons, if_neg (by decide)]
      have hdwn : ('/' :: pp).dropWhile netChar = '/' :: pp := by
        rw [List.dropWhile_cons, if_neg (by decide)]
      rw [htwn, hdwn]
      rw [unparse_of_parsePQF
        (fun hm => by
          rcases List.mem_cons.1 hm with hx | hx
          · exact absurd hx (by decide)
          · exact hph hx)
        (fun hm => by
          rcases List.mem_cons.1 hm with hx | hx
          · exact absurd hx (by decide)
          · exact hpq hx)
        (fun hup => semiOk_cons_slash (hinv.semi hup))]
      apply unparseCore_congr
      have htk2 : ('/' :: pp).take 2 ≠ ['/', '/'] := by
        rw [List.take_succ_cons]
        intro hcontra
        injection hcontra with _ h2
        exact hins.2 h2
      have hni : ¬('/' :: pp ≠ [] ∧ ('/' :: pp).take 1 ≠ ['/']) := fun hcon =>
        hcon.2 (by rw [List.take_succ_cons, List.take_zero])
      have eL : coreU1 s [] ('/' :: pp) = '/' :: '/' :: ('/' :: pp) := by
        unfold coreU1
        rw [if_pos (Or.inr ⟨hc2.1, hc2.2.1, htk2⟩), if_neg hni]
        rfl
      have eR : coreU1 s [] pp = '/' :: '/' :: ('/' :: pp) := by
        unfold coreU1
        rw [if_pos hcond, if_pos hins]
        rfl
      rw [eL, eR]
    · -- no '/' inserted: pp = [] or pp starts with '/'
      have hppc : pp = [] ∨ ∃ t, pp = '/' :: t := by
        by_cases hpe : pp = []
        · exact Or.inl hpe
        · right
          apply take1_shape
          by_contra hne
          exact hins ⟨hpe, hne⟩
      have hcore : coreU1 s n pp = '/' :: '/' :: (n ++ pp) := by
        unfold coreU1
        rw [if_pos hcond, if_neg hins]
      rw [hcore]
      unfold parseTail
      rw [if_pos (by rfl)]
      have hdrop : (('/' :: '/' :: (n ++ pp)).drop 2) = n ++ pp := by rfl
      rw [hdrop]
      rcases hppc with rfl | ⟨t, rfl⟩
      · -- LEAF 2/4a: pp = []
        have htwn : (n ++ ([] : List Char)).takeWhile netChar = n := by
          rw [List.append_nil]
          exact tw_all hinv.netloc_ok
        have hdwn : (n ++ ([] : List Char)).dropWhile netChar = [] := by
          rw [List.append_nil]
          exact dw_all hinv.netloc_ok
        rw [htwn, hdwn]
        rw [unparse_of_parsePQF (by simp) (by simp) (fun _ => semiOk_nil)]
      · -- LEAF 3/4b: pp = '/' :: t
        have htwn : (n ++ '/' :: t).takeWhile netChar = n :=
          tw_stop _ hinv.netloc_ok (by decide)
        have hdwn : (n ++ '/' :: t).dropWhile netChar = '/' :: t :=
          dw_stop _ hinv.netloc_ok (by decide)
        rw [htwn, hdwn]
        rw [unparse_of_parsePQF hph hpq hinv.semi]
  · -- '//' not restored: coreU1 = pp, and n = []
    have hn : n = [] := by
      by_contra hnne
      exact hcond (Or.inl hnne)
    subst hn
    have hcore : coreU1 s [] pp = pp := by
      unfold coreU1
      rw [if_neg hcond]
    rw [hcore]
    unfold parseTail
    by_cases htk : pp.take 2 = ['/', '/']
    · rw [if_pos htk]
      -- LEAF 6: netloc extraction eats into pp
      have hpp2 : pp = '/' :: '/' :: pp.drop 2 := take2_split htk
      have hq2h : '#' ∉ pp.drop 2 := fun hm => hph (List.drop_subset 2 pp hm)
      have hq2q : '?' ∉ pp.drop 2 := fun hm => hpq (List.drop_subset 2 pp hm)
      have hresth : '#' ∉ (pp.drop 2).dropWhile netChar := fun hm => hq2h (mem_dw hm)
      have hrestq : '?' ∉ (pp.drop 2).dropWhile netChar := fun hm => hq2q (mem_dw hm)
      have hrest_shape : (pp.drop 2).dropWhile netChar = [] ∨
          ∃ t, (pp.drop 2).dropWhile netChar = '/' :: t := by
        rcases hd : (pp.drop 2).dropWhile netChar with _ | ⟨c, t⟩
        · exact Or.inl rfl
        · right
          rcases netChar_false_cases (dw_head hd) with rfl | rfl | rfl
          · exact ⟨t, rfl⟩
          · exact absurd (hd ▸ List.mem_cons_self _ _) hrestq
          · exact absurd (hd ▸ List.mem_cons_self _ _) hresth
      have hsemirest : s ∈ usesParams → SemiOk ((pp.drop 2).dropWhile netChar) := by
        intro hup
        rcases hrest_shape with h0 | ⟨t, ht⟩
        · rw [h0]; exact semiOk_nil
        · have hsm : '/' ∈ (pp.drop 2).dropWhile netChar := by
            rw [ht]; exact List.mem_cons_self _ _
          have hppsplit : ('/' :: '/' :: (pp.drop 2).takeWhile netChar) ++
              (pp.drop 2).dropWhile netChar = pp := by
            rw [List.cons_append, List.cons_append, List.takeWhile_append_dropWhile]
            exact hpp2.symm
          have hsp := hinv.semi hup
          rw [← hppsplit] at hsp
          exact semiOk_of_append_slash hsm hsp
      rw [unparse_of_parsePQF hresth hrestq hsemirest]
      apply unparseCore_congr
      by_cases hnl2 : (pp.drop 2).takeWhile netChar = []
      · -- LEAF 6-ii: uses ¬coreBad
        have hG : s ≠ [] ∧ s ∈ usesNetloc ∧ (pp.drop 2).take 2 ≠ ['/', '/'] := by
          by_contra hnG
          exact hnb ⟨rfl, htk, hnl2, hnG⟩
        rw [hnl2]
        have hrest2 : (pp.drop 2).dropWhile netChar = pp.drop 2 := tw_nil_dw hnl2
        rw [hrest2]
        have eR : coreU1 s [] pp = pp := by
          unfold coreU1
          rw [if_neg hcond]
        rw [eR]
        rcases hrest_shape with h0 | ⟨t, ht⟩
        · rw [hrest2] at h0
          rw [h0] at hpp2 ⊢
          have eL : coreU1 s [] ([] : List Char) = ['/', '/'] := by
            unfold coreU1
            rw [if_pos (Or.inr ⟨hG.1, hG.2.1, by simp⟩), if_neg (by simp)]
            rfl
          rw [eL, hpp2]
        · rw [hrest2] at ht
          have eL : coreU1 s [] (pp.drop 2) = '/' :: '/' :: pp.drop 2 := by
            unfold coreU1
            rw [if_pos (Or.inr ⟨hG.1, hG.2.1, hG.2.2⟩),
              if_neg (fun hcon => hcon.2 (by rw [ht, List.take_succ_cons, List.take_zero]))]
            rfl
          rw [eL, ← hpp2]
      · -- LEAF 6-i: nonempty netloc recovered from pp
        have eL : coreU1 s ((pp.drop 2).takeWhile netChar) ((pp.drop 2).dropWhile netChar) =
            '/' :: '/' :: ((pp.drop 2).takeWhile netChar ++ (pp.drop 2).dropWhile netChar) := by
          unfold coreU1
          rw [if_pos (Or.inl hnl2)]
          rcases hrest_shape with h0 | ⟨t, ht⟩
          · rw [h0]
            rw [if_neg (by simp)]
          · rw [if_neg (fun hcon => hcon.2 (by rw [ht, List.take_succ_cons, List.take_zero]))]
        have eR : coreU1 s [] pp = pp := by
          unfold coreU1
          rw [if_neg hcond]
        rw [eL, eR, List.takeWhile_append_dropWhile, ← hpp2]
    · rw [if_neg htk]
      -- LEAF 5: plain path
      rw [unparse_of_parsePQF hph hpq hinv.semi]

theorem core_roundtrip {s n pp : List Char} (hinv : PInv s n pp) (hnb : ¬coreBad s n pp) :
    normalize (unparseCore s n pp) = unparseCore s n pp := by
  rw [normalize_eq]
  unfold urlparse
  rw [unparseCore_cleanUrl hinv, unparseCore_splitScheme hinv]
  dsimp only
  exact parseTail_unparse hinv hnb

theorem normalize_idem_of_not_degenerate (u : Url) (h : ¬slashDegenerate (urlparse u)) :
    normalize (normalize u) = normalize u := by
  rw [normalize_eq u]
  exact core_roundtrip (urlparse_core_inv u) h


/-! ## Fetch lemmas -/

theorem urljoin_nil (j : Url → Url → Url) (base : Url) : urljoin j base [] = base := by
  unfold urljoin
  by_cases h : base = []
  · rw [if_pos h, h]
  · rw [if_neg h, if_pos rfl]

theorem fetch_req1_error {net : Net} {j : Url → Url → Url} {url domain : Url} {e : Exn}
    (h : net.req1 url = .error e) :
    fetch net j url domain = ⟨none, url, none, some (exnMsg e), 1⟩ := by
  unfold fetch
  rw [h]

theorem fetch_soft404 {net : Net} {j : Url → Url → Url} {url domain : Url} {r : Resp}
    (h1 : net.req1 url = .ok r) (h2 : r.status ∈ redirectCodes)
    (h3 : notFoundMarker (urljoin j url (r.location.getD [])) = true) :
    fetch net j url domain =
      ⟨some 404, urljoin j url (r.location.getD []), none, none, 1⟩ := by
  unfold fetch
  rw [h1]
  dsimp only
  rw [if_pos h2, if_pos h3]

theorem fetch_req2_error {net : Net} {j : Url → Url → Url} {url domain : Url} {r : Resp} {e : Exn}
    (h1 : net.req1 url = .ok r) (h2 : r.status ∈ redirectCodes)
    (h3 : notFoundMarker (urljoin j url (r.location.getD [])) = false)
    (h4 : net.req2 (urljoin j url (r.location.getD [])) = .error e) :
    fetch net j url domain = ⟨none, url, none, some (exnMsg e), 2⟩ := by
  unfold fetch
  rw [h1]
  dsimp only
  rw [if_pos h2, if_neg (by rw [h3]; exact Bool.false_ne_true), h4]

theorem fetch_redirect_follow {net : Net} {j : Url → Url → Url} {url domain : Url}
    {r r2 : Resp}
    (h1 : net.req1 url = .ok r) (h2 : r.status ∈ redirectCodes)
    (h3 : notFoundMarker (urljoin j url (r.location.getD [])) = false)
    (h4 : net.req2 (urljoin j url (r.location.getD [])) = .ok r2) :
    fetch net j url domain =
      ⟨some r2.status, r2.rurl,
       if is_internal url domain && r2.status == 200 then some r2.text else none, none, 2⟩ := by
  unfold fetch
  rw [h1]
  dsimp only
  rw [if_pos h2, if_neg (by rw [h3]; exact Bool.false_ne_true), h4]

theorem fetch_no_redirect {net : Net} {j : Url → Url → Url} {url domain : Url} {r : Resp}
    (h1 : net.req1 url = .ok r) (h2 : r.status ∉ redirectCodes) :
    fetch net j url domain =
      ⟨some r.status, url,
       if is_internal url domain && r.status == 200 then some r.text else none, none, 1⟩ := by
  unfold fetch
  rw [h1]
  dsimp only
  rw [if_neg h2]

theorem fetch_body_internal_200 {net : Net} {j : Url → Url → Url} {url domain : Url}
    {b : Url} (h : (fetch net j url domain).body = some b) :
    is_internal url domain = true ∧ (fetch net j url domain).status = some 200 := by
  unfold fetch at h ⊢
  rcases hreq : net.req1 url with e | r
  · rw [hreq] at h
    dsimp only at h
    cases h
  · rw [hreq] at h
    dsimp only at h ⊢
    by_cases h2 : r.status ∈ redirectCodes
    · rw [if_pos h2] at h ⊢
      by_cases h3 : notFoundMarker (urljoin j url (r.location.getD [])) = true
      · rw [if_pos h3] at h
        cases h
      · rw [if_neg h3] at h ⊢
        rcases hreq2 : net.req2 (urljoin j url (r.location.getD [])) with e2 | r2
        · try rw [hreq2] at h
          dsimp only at h
          cases h
        · try rw [hreq2] at h
          dsimp only at h ⊢
          by_cases hcond : (is_internal url domain && r2.status == 200) = true
          · rw [if_pos hcond] at h
            rw [Bool.and_eq_true] at hcond
            rcases hcond with ⟨hi, hst⟩
            exact ⟨hi, by
              have hs : r2.status = 200 := by simpa using hst
              rw [hs]⟩
          · rw [if_neg hcond] at h
            cases h
    · rw [if_neg h2] at h ⊢
      by_cases hcond : (is_internal url domain && r.status == 200) = true
      · rw [if_pos hcond] at h
        rw [Bool.and_eq_true] at hcond
        rcases hcond with ⟨hi, hst⟩
        refine ⟨hi, ?_⟩
        have hs : r.status = 200 := by simpa using hst
        rw [hs]
      · rw [if_neg hcond] at h
        cases h

/-! ## normalize output has no query and no fragment -/

theorem normalize_NoQF (u : Url) : NoQF (normalize u) := by
  rw [normalize_eq]
  have hinv := urlparse_core_inv u
  constructor
  · intro hx
    rcases mem_unparseCore hx with h | h | h | h | h
    · rcases hinv.scheme_ok with hs | hs
      · rw [hs] at h
        exact absurd h (List.not_mem_nil _)
      · exact absurd (hs.2.2 _ h).1 (by decide)
    · exact absurd (hinv.netloc_ok _ h) (by decide)
    · exact hinv.pp_q h
    · exact absurd h (by decide)
    · exact absurd h (by decide)
  · intro hx
    rcases mem_unparseCore hx with h | h | h | h | h
    · rcases hinv.scheme_ok with hs | hs
      · rw [hs] at h
        exact absurd h (List.not_mem_nil _)
      · exact absurd (hs.2.2 _ h).1 (by decide)
    · exact absurd (hinv.netloc_ok _ h) (by decide)
    · exact hinv.pp_h h
    · exact absurd h (by decide)
    · exact absurd h (by decide)

/-! ## get_links produces only normalized URLs -/

theorem get_links_aux_NoQF (soup : Url → List Url) (j : Url → Url → Url) (url : Url)
    (hrefs : List Url) :
    ∀ acc : List Url, (∀ x ∈ acc, NoQF x) →
      ∀ x ∈ hrefs.foldl (fun acc href =>
        let full := normalize (urljoin j url href)
        if schemeHttp full && !extSkip (urlparse full).path then insertAbsent full acc
        else acc) acc, NoQF x := by
  induction hrefs with
  | nil => intro acc hacc x hx; exact hacc x hx
  | cons a tl ih =>
    intro acc hacc x hx
    rw [List.foldl_cons] at hx
    refine ih _ ?_ x hx
    intro y hy
    dsimp only at hy
    by_cases hc : (schemeHttp (normalize (urljoin j url a)) &&
        !extSkip (urlparse (normalize (urljoin j url a))).path) = true
    · rw [if_pos hc] at hy
      unfold insertAbsent at hy
      by_cases hmem : normalize (urljoin j url a) ∈ acc
      · rw [if_pos hmem] at hy
        exact hacc y hy
      · rw [if_neg hmem] at hy
        rcases List.mem_append.1 hy with hy | hy
        · exact hacc y hy
        · rw [List.mem_singleton.1 hy]
          exact normalize_NoQF _
    · rw [if_neg hc] at hy
      exact hacc y hy

theorem get_links_NoQF (soup : Url → List Url) (j : Url → Url → Url) (url html : Url) :
    ∀ x ∈ get_links soup j url html, NoQF x := by
  unfold get_links
  exact get_links_aux_NoQF soup j url (soup html) [] (fun x hx => absurd hx (List.not_mem_nil x))

/-! ## Record bookkeeping lemmas -/

theorem updateFirst_mem_of_ne {u : Url} {f : FetchOut} {rs rs' : List Rec}
    (h : updateFirst u f rs = some rs') :
    ∀ r ∈ rs, r.url ≠ u → r ∈ rs' := by
  induction rs generalizing rs' with
  | nil => cases h
  | cons r0 tl ih =>
    unfold updateFirst at h
    by_cases h0 : r0.url = u
    · rw [if_pos h0] at h
      have h' := Option.some.inj h
      subst h'
      intro r hr hne
      rcases List.mem_cons.1 hr with rfl | hr
      · exact absurd h0 hne
      · exact List.mem_cons_of_mem _ hr
    · rw [if_neg h0] at h
      rcases Option.map_eq_some'.1 h with ⟨tl', htl, rfl⟩
      intro r hr hne
      rcases List.mem_cons.1 hr with rfl | hr
      · exact List.mem_cons_self _ _
      · exact List.mem_cons_of_mem _ (ih htl r hr hne)

theorem updateFirst_has {u : Url} {f : FetchOut} {rs rs' : List Rec}
    (h : updateFirst u f rs = some rs') :
    ∃ r ∈ rs', r.url = u ∧ r.status = f.status ∧ r.error = f.error.getD [] := by
  induction rs generalizing rs' with
  | nil => cases h
  | cons r0 tl ih =>
    unfold updateFirst at h
    by_cases h0 : r0.url = u
    · rw [if_pos h0] at h
      have h' := Option.some.inj h
      subst h'
      exact ⟨setOutcome r0 u f, List.mem_cons_self _ _, h0, rfl, rfl⟩
    · rw [if_neg h0] at h
      rcases Option.map_eq_some'.1 h with ⟨tl', htl, rfl⟩
      rcases ih htl with ⟨r, hr, hru, hrs, hre⟩
      exact ⟨r, List.mem_cons_of_mem _ hr, hru, hrs, hre⟩

theorem recordOutcome_eq_some {u source : Url} {f : FetchOut} {domain : Url}
    {rs rs' : List Rec} (h : updateFirst u f rs = some rs') :
    recordOutcome u source f domain rs = rs' := by
  unfold recordOutcome
  rw [h]

theorem recordOutcome_eq_none {u source : Url} {f : FetchOut} {domain : Url}
    {rs : List Rec} (h : updateFirst u f rs = none) :
    recordOutcome u source f domain rs = rs ++ [newRec source u f domain] := by
  unfold recordOutcome
  rw [h]

theorem recordOutcome_pres {u source : Url} {f : FetchOut} {domain : Url} {rs : List Rec}
    {r : Rec} (hr : r ∈ rs) (hne : r.url ≠ u) :
    r ∈ recordOutcome u source f domain rs := by
  rcases hcase : updateFirst u f rs with _ | rs'
  · rw [recordOutcome_eq_none hcase]
    exact List.mem_append_left _ hr
  · rw [recordOutcome_eq_some hcase]
    exact updateFirst_mem_of_ne hcase r hr hne

theorem recordOutcome_has (u source : Url) (f : FetchOut) (domain : Url) (rs : List Rec) :
    hasOutcome u f (recordOutcome u source f domain rs) := by
  rcases hcase : updateFirst u f rs with _ | rs'
  · rw [recordOutcome_eq_none hcase]
    exact ⟨newRec source u f domain, List.mem_append_right _ (List.mem_singleton.2 rfl),
      rfl, rfl, rfl⟩
  · rw [recordOutcome_eq_some hcase]
    exact updateFirst_has hcase

theorem hasOutcome_append {u : Url} {f : FetchOut} {rs : List Rec} (ext : List Rec)
    (h : hasOutcome u f rs) : hasOutcome u f (rs ++ ext) := by
  rcases h with ⟨r, hr, h1, h2, h3⟩
  exact ⟨r, List.mem_append_left _ hr, h1, h2, h3⟩

theorem recordOutcome_pres_outcome {u' : Url} {f' : FetchOut} {u source : Url} {f : FetchOut}
    {domain : Url} {rs : List Rec} (h : hasOutcome u' f' rs) (hc : u' = u → f' = f) :
    hasOutcome u' f' (recordOutcome u source f domain rs) := by
  by_cases he : u' = u
  · subst he
    rw [hc rfl]
    exact recordOutcome_has u' source f domain rs
  · rcases h with ⟨r, hr, h1, h2, h3⟩
    exact ⟨r, recordOutcome_pres hr (by rw [h1]; exact he), h1, h2, h3⟩

/-! ## recordBlock lemmas -/

theorem rbFold (domain u : Url) (vis : List Url) (nu : List Url) :
    ∀ acc : List Rec × List (Url × Url) × List Url,
      ∃ l : List Url,
        nu.foldl (fun acc link =>
          if link ∉ vis then
            (acc.1 ++ [placeholderRec u link domain], acc.2.1 ++ [(link, u)], acc.2.2 ++ [link])
          else acc) acc =
          (acc.1 ++ l.map (fun link => placeholderRec u link domain),
           acc.2.1 ++ l.map (fun link => (link, u)), acc.2.2 ++ l) ∧
        ∀ x ∈ l, x ∈ nu := by
  induction nu with
  | nil =>
    intro acc
    exact ⟨[], by simp, by simp⟩
  | cons a tl ih =>
    intro acc
    rw [List.foldl_cons]
    by_cases ha : a ∉ vis
    · rw [if_pos ha]
      rcases ih (acc.1 ++ [placeholderRec u a domain], acc.2.1 ++ [(a, u)], acc.2.2 ++ [a]) with
        ⟨l, hl, hmem⟩
      refine ⟨a :: l, ?_, ?_⟩
      · rw [hl]
        simp [List.append_assoc]
      · intro x hx
        rcases List.mem_cons.1 hx with rfl | hx
        · exact List.mem_cons_self _ _
        · exact List.mem_cons_of_mem _ (hmem x hx)
    · rw [if_neg ha]
      rcases ih acc with ⟨l, hl, hmem⟩
      exact ⟨l, hl, fun x hx => List.mem_cons_of_mem _ (hmem x hx)⟩

theorem recordBlock_visited (domain u source : Url) (f : FetchOut) (nu : List Url) (s : St) :
    (recordBlock domain u source f nu s).visited = s.visited := rfl

theorem recordBlock_stop (domain u source : Url) (f : FetchOut) (nu : List Url) (s : St) :
    (recordBlock domain u source f nu s).stop = s.stop := rfl

theorem recordBlock_fetchLog (domain u source : Url) (f : FetchOut) (nu : List Url) (s : St) :
    (recordBlock domain u source f nu s).fetchLog = s.fetchLog := rfl

theorem recordBlock_spec (domain u source : Url) (f : FetchOut) (nu : List Url) (s : St) :
    ∃ l : List Url,
      (recordBlock domain u source f nu s).results =
        recordOutcome u source f domain s.results ++
          l.map (fun link => placeholderRec u link domain) ∧
      (recordBlock domain u source f nu s).queue = s.queue ++ l.map (fun link => (link, u)) ∧
      (recordBlock domain u source f nu s).enqueueLog = s.enqueueLog ++ l ∧
      (∀ x ∈ l, x ∈ nu) := by
  unfold recordBlock
  rcases rbFold domain u s.visited nu
      (recordOutcome u source f domain s.results, s.queue, s.enqueueLog) with ⟨l, hl, hmem⟩
  refine ⟨l, ?_, ?_, ?_, hmem⟩ <;> (dsimp only; rw [hl])

/-! ## process lemmas -/

theorem process_of_stop {env : Env} {domain u source : Url} {s : St}
    (h : s.stop ∨ should_skip u = true) :
    process env domain u source s = s := by
  unfold process
  rw [if_pos h]

theorem process_not_skip {env : Env} {domain u source : Url} {s : St}
    (h : ¬(s.stop ∨ should_skip u = true)) :
    process env domain u source s =
      recordBlock domain u source (fetch env.net env.j u domain)
        ((match (fetch env.net env.j u domain).body with
          | some html =>
            if html ≠ [] ∧ is_internal u domain = true then get_links env.soup env.j u html
            else []
          | none => []).filter (fun l => l ∉ s.visited))
        { s with fetchLog := s.fetchLog ++ [u] } := by
  unfold process
  rw [if_neg h]

theorem process_visited (env : Env) (domain u source : Url) (s : St) :
    (process env domain u source s).visited = s.visited := by
  by_cases h : s.stop ∨ should_skip u = true
  · rw [process_of_stop h]
  · rw [process_not_skip h]
    rfl

theorem process_stop (env : Env) (domain u source : Url) (s : St) :
    (process env domain u source s).stop = s.stop := by
  by_cases h : s.stop ∨ should_skip u = true
  · rw [process_of_stop h]
  · rw [process_not_skip h]
    rfl

theorem process_fetchLog (env : Env) (domain u source : Url) (s : St) :
    (process env domain u source s).fetchLog = s.fetchLog ∨
      (process env domain u source s).fetchLog = s.fetchLog ++ [u] := by
  by_cases h : s.stop ∨ should_skip u = true
  · rw [process_of_stop h]
    exact Or.inl rfl
  · rw [process_not_skip h]
    exact Or.inr rfl

theorem process_establishes {env : Env} {domain u source : Url} {s : St}
    (h : ¬(s.stop ∨ should_skip u = true)) :
    hasOutcome u (fetch env.net env.j u domain) (process env domain u source s).results := by
  rw [process_not_skip h]
  rcases recordBlock_spec domain u source (fetch env.net env.j u domain) _
      { s with fetchLog := s.fetchLog ++ [u] } with ⟨l, hres, _, _, _⟩
  rw [hres]
  exact hasOutcome_append _ (recordOutcome_has u source (fetch env.net env.j u domain) domain _)

theorem process_resolved (env : Env) (domain u source : Url) (s : St)
    (h : ∀ x ∈ s.fetchLog, hasOutcome x (fetch env.net env.j x domain) s.results) :
    ∀ x ∈ (process env domain u source s).fetchLog,
      hasOutcome x (fetch env.net env.j x domain) (process env domain u source s).results := by
  by_cases hc : s.stop ∨ should_skip u = true
  · rw [process_of_stop hc]
    exact h
  · rw [process_not_skip hc]
    rcases recordBlock_spec domain u source (fetch env.net env.j u domain) _
        { s with fetchLog := s.fetchLog ++ [u] } with ⟨l, hres, _, _, _⟩
    rw [hres, recordBlock_fetchLog]
    intro x hx
    have hx' : x ∈ s.fetchLog ++ [u] := hx
    rcases List.mem_append.1 hx' with hx1 | hx1
    · exact hasOutcome_append _
        (recordOutcome_pres_outcome (h x hx1) (fun he => by rw [he]))
    · rw [List.mem_singleton.1 hx1]
      exact hasOutcome_append _ (recordOutcome_has u source (fetch env.net env.j u domain) domain _)

theorem process_queue_mem {env : Env} {domain u source : Url} {s : St} {p : Url × Url}
    (hp : p ∈ (process env domain u source s).queue) :
    p ∈ s.queue ∨ (NoQF p.1 ∧ p.2 = u) := by
  by_cases hc : s.stop ∨ should_skip u = true
  · rw [process_of_stop hc] at hp
    exact Or.inl hp
  · rw [process_not_skip hc] at hp
    rcases recordBlock_spec domain u source (fetch env.net env.j u domain) _
        { s with fetchLog := s.fetchLog ++ [u] } with ⟨l, _, hq, _, hmem⟩
    rw [hq] at hp
    rcases List.mem_append.1 hp with hp | hp
    · exact Or.inl hp
    · right
      rcases List.mem_map.1 hp with ⟨link, hlink, rfl⟩
      refine ⟨?_, rfl⟩
      have hl2 := hmem link hlink
      have hl3 := List.mem_of_mem_filter hl2
      revert hl3
      rcases (fetch env.net env.j u domain).body with _ | html
      · intro hl3
        cases hl3
      · intro hl3
        dsimp only at hl3
        by_cases hcond : html ≠ [] ∧ is_internal u domain = true
        · rw [if_pos hcond] at hl3
          exact get_links_NoQF env.soup env.j u html _ hl3
        · rw [if_neg hcond] at hl3
          cases hl3

/-! ## drawBatch -/

theorem drawBatch_spec (cap bmax : Nat) (q : List (Url × Url)) :
    ∀ (v : List Url) (b : List (Url × Url)),
      ∃ ext : List (Url × Url),
        (drawBatch cap bmax q v b).2.2 = b ++ ext ∧
        (drawBatch cap bmax q v b).2.1 = v ++ ext.map Prod.fst ∧
        (∀ p ∈ ext, p ∈ q ∧ p.1 ∉ v) ∧
        (ext.map Prod.fst).Nodup ∧
        (∀ p ∈ (drawBatch cap bmax q v b).1, p ∈ q) ∧
        (v.length ≤ cap → (drawBatch cap bmax q v b).2.1.length ≤ cap) := by
  induction q with
  | nil =>
    intro v b
    exact ⟨[], by simp [drawBatch], by simp [drawBatch], by simp, by simp,
      by simp [drawBatch], by simp [drawBatch]⟩
  | cons hd q ih =>
    intro v b
    obtain ⟨u, src⟩ := hd
    simp only [drawBatch]
    by_cases hb : b.length < bmax
    · rw [if_pos hb]
      by_cases hg : u ∉ v ∧ v.length < cap
      · rw [if_pos hg]
        rcases ih (v ++ [u]) (b ++ [(u, src)]) with ⟨ext, h1, h2, h3, h4, h5, h6⟩
        refine ⟨(u, src) :: ext, ?_, ?_, ?_, ?_, ?_, ?_⟩
        · rw [h1, List.append_assoc]
          rfl
        · rw [h2, List.append_assoc]
          rfl
        · intro p hp
          rcases List.mem_cons.1 hp with rfl | hp
          · exact ⟨List.mem_cons_self _ _, hg.1⟩
          · rcases h3 p hp with ⟨hq2, hv⟩
            exact ⟨List.mem_cons_of_mem _ hq2, fun hvv => hv (List.mem_append_left _ hvv)⟩
        · rw [List.map_cons]
          refine List.nodup_cons.2 ⟨?_, h4⟩
          intro hmem
          rcases List.mem_map.1 hmem with ⟨p, hp, hpe⟩
          rcases h3 p hp with ⟨_, hv⟩
          exact hv (List.mem_append_right _ (List.mem_singleton.2 hpe))
        · intro p hp
          exact List.mem_cons_of_mem _ (h5 p hp)
        · intro hvc
          refine h6 ?_
          rw [List.length_append]
          simp only [List.length_singleton]
          omega
      · rw [if_neg hg]
        rcases ih v b with ⟨ext, h1, h2, h3, h4, h5, h6⟩
        exact ⟨ext, h1, h2,
          fun p hp => ⟨List.mem_cons_of_mem _ (h3 p hp).1, (h3 p hp).2⟩, h4,
          fun p hp => List.mem_cons_of_mem _ (h5 p hp), h6⟩
    · rw [if_neg hb]
      exact ⟨[], by simp, by simp, by simp, by simp, fun p hp => hp, fun h => by simpa using h⟩

/-! ## Folding process over a batch -/

theorem foldBatch_visited (env : Env) (domain : Url) (batch : List (Url × Url)) :
    ∀ s : St,
      (batch.foldl (fun acc e => process env domain e.1 e.2 acc) s).visited = s.visited ∧
      (batch.foldl (fun acc e => process env domain e.1 e.2 acc) s).stop = s.stop := by
  induction batch with
  | nil => intro s; exact ⟨rfl, rfl⟩
  | cons e tl ih =>
    intro s
    rw [List.foldl_cons]
    rcases ih (process env domain e.1 e.2 s) with ⟨h1, h2⟩
    exact ⟨by rw [h1, process_visited], by rw [h2, process_stop]⟩

theorem foldBatch_resolved (env : Env) (domain : Url) (batch : List (Url × Url)) :
    ∀ s : St, (∀ x ∈ s.fetchLog, hasOutcome x (fetch env.net env.j x domain) s.results) →
      ∀ x ∈ (batch.foldl (fun acc e => process env domain e.1 e.2 acc) s).fetchLog,
        hasOutcome x (fetch env.net env.j x domain)
          (batch.foldl (fun acc e => process env domain e.1 e.2 acc) s).results := by
  induction batch with
  | nil => intro s h; exact h
  | cons e tl ih =>
    intro s h
    rw [List.foldl_cons]
    exact ih _ (process_resolved env domain e.1 e.2 s h)

theorem foldBatch_once (env : Env) (domain : Url) (batch : List (Url × Url)) :
    ∀ s : St, s.fetchLog.Nodup → (batch.map Prod.fst).Nodup →
      (∀ p ∈ batch, p.1 ∉ s.fetchLog) →
      (batch.foldl (fun acc e => process env domain e.1 e.2 acc) s).fetchLog.Nodup ∧
      ∀ x ∈ (batch.foldl (fun acc e => process env domain e.1 e.2 acc) s).fetchLog,
        x ∈ s.fetchLog ∨ x ∈ batch.map Prod.fst := by
  induction batch with
  | nil => intro s h1 _ _; exact ⟨h1, fun x hx => Or.inl hx⟩
  | cons e tl ih =>
    intro s h1 h2 h3
    rw [List.foldl_cons]
    have h2' := List.nodup_cons.1 (by simpa only [List.map_cons] using h2)
    rcases process_fetchLog env domain e.1 e.2 s with hf | hf
    · rcases ih (process env domain e.1 e.2 s) (by rw [hf]; exact h1) h2'.2
          (fun p hp => by rw [hf]; exact h3 p (List.mem_cons_of_mem _ hp)) with ⟨g1, g2⟩
      refine ⟨g1, fun x hx => ?_⟩
      rcases g2 x hx with hx1 | hx1
      · rw [hf] at hx1
        exact Or.inl hx1
      · exact Or.inr (by rw [List.map_cons]; exact List.mem_cons_of_mem _ hx1)
    · have hnodup : (s.fetchLog ++ [e.1]).Nodup := by
        refine List.Nodup.append h1 (List.nodup_singleton _) ?_
        intro a ha ha2
        rw [List.mem_singleton.1 ha2] at ha
        exact h3 e (List.mem_cons_self _ _) ha
      rcases ih (process env domain e.1 e.2 s) (by rw [hf]; exact hnodup) h2'.2
          (fun p hp => by
            rw [hf]
            intro hmem
            rcases List.mem_append.1 hmem with hm | hm
            · exact h3 p (List.mem_cons_of_mem _ hp) hm
            · exact h2'.1 (by rw [← List.mem_singleton.1 hm]; exact List.mem_map_of_mem _ hp)) with
        ⟨g1, g2⟩
      refine ⟨g1, fun x hx => ?_⟩
      rcases g2 x hx with hx1 | hx1
      · rw [hf] at hx1
        rcases List.mem_append.1 hx1 with hm | hm
        · exact Or.inl hm
        · exact Or.inr (by rw [List.map_cons, List.mem_singleton.1 hm]; exact List.mem_cons_self _ _)
      · exact Or.inr (by rw [List.map_cons]; exact List.mem_cons_of_mem _ hx1)

theorem foldBatch_noqf (env : Env) (domain : Url) (batch : List (Url × Url)) :
    ∀ s : St, (∀ p ∈ s.queue, NoQF p.1) → (∀ x ∈ s.fetchLog, NoQF x) →
      (∀ p ∈ batch, NoQF p.1) →
      (∀ p ∈ (batch.foldl (fun acc e => process env domain e.1 e.2 acc) s).queue, NoQF p.1) ∧
      (∀ x ∈ (batch.foldl (fun acc e => process env domain e.1 e.2 acc) s).fetchLog, NoQF x) := by
  induction batch with
  | nil => intro s hq hf _; exact ⟨hq, hf⟩
  | cons e tl ih =>
    intro s hq hf hb
    rw [List.foldl_cons]
    refine ih _ ?_ ?_ (fun p hp => hb p (List.mem_cons_of_mem _ hp))
    · intro p hp
      rcases process_queue_mem hp with hp1 | hp1
      · exact hq p hp1
      · exact hp1.1
    · intro x hx
      rcases process_fetchLog env domain e.1 e.2 s with hfe | hfe
      · rw [hfe] at hx
        exact hf x hx
      · rw [hfe] at hx
        rcases List.mem_append.1 hx with hm | hm
        · exact hf x hm
        · rw [List.mem_singleton.1 hm]
          exact hb e (List.mem_cons_self _ _)

/-! ## Crawl-loop invariants -/

theorem crawlLoop_resolved (env : Env) (domain : Url) (fuel : Nat) :
    ∀ s : St, (∀ x ∈ s.fetchLog, hasOutcome x (fetch env.net env.j x domain) s.results) →
      ∀ x ∈ (crawlLoop env domain fuel s).fetchLog,
        hasOutcome x (fetch env.net env.j x domain) (crawlLoop env domain fuel s).results := by
  induction fuel with
  | zero => intro s h; exact h
  | succ fuel ih =>
    intro s h
    simp only [crawlLoop]
    by_cases hst : s.stop = true
    · rw [if_pos hst]
      exact h
    · rw [if_neg hst]
      dsimp only
      by_cases hbatch : (drawBatch env.cap (env.threads * 2) s.queue s.visited []).2.2 = []
      · rw [if_pos hbatch]
        by_cases hq : ({ s with
            queue := (drawBatch env.cap (env.threads * 2) s.queue s.visited []).1,
            visited := (drawBatch env.cap (env.threads * 2) s.queue s.visited []).2.1 } : St).queue = []
        · rw [if_pos hq]
          exact h
        · rw [if_neg hq]
          exact ih _ h
      · rw [if_neg hbatch]
        exact ih _ (foldBatch_resolved env domain _ _ h)

theorem crawlLoop_once (env : Env) (domain : Url) (fuel : Nat) :
    ∀ s : St, s.visited.Nodup → s.fetchLog.Nodup → (∀ x ∈ s.fetchLog, x ∈ s.visited) →
      (crawlLoop env domain fuel s).visited.Nodup ∧
      (crawlLoop env domain fuel s).fetchLog.Nodup ∧
      ∀ x ∈ (crawlLoop env domain fuel s).fetchLog, x ∈ (crawlLoop env domain fuel s).visited := by
  induction fuel with
  | zero => intro s h1 h2 h3; exact ⟨h1, h2, h3⟩
  | succ fuel ih =>
    intro s h1 h2 h3
    simp only [crawlLoop]
    by_cases hst : s.stop = true
    · rw [if_pos hst]
      exact ⟨h1, h2, h3⟩
    · rw [if_neg hst]
      dsimp only
      rcases drawBatch_spec env.cap (env.threads * 2) s.queue s.visited [] with
        ⟨ext, e1, e2, e3, e4, e5, e6⟩
      have hvis : (drawBatch env.cap (env.threads * 2) s.queue s.visited []).2.1.Nodup := by
        rw [e2]
        refine List.Nodup.append h1 e4 ?_
        intro a ha ha2
        rcases List.mem_map.1 ha2 with ⟨p, hp, hpe⟩
        exact (e3 p hp).2 (by rw [hpe]; exact ha)
      have hsub : ∀ x ∈ s.fetchLog,
          x ∈ (drawBatch env.cap (env.threads * 2) s.queue s.visited []).2.1 := by
        intro x hx
        rw [e2]
        exact List.mem_append_left _ (h3 x hx)
      by_cases hbatch : (drawBatch env.cap (env.threads * 2) s.queue s.visited []).2.2 = []
      · rw [if_pos hbatch]
        by_cases hq : ({ s with
            queue := (drawBatch env.cap (env.threads * 2) s.queue s.visited []).1,
            visited := (drawBatch env.cap (env.threads * 2) s.queue s.visited []).2.1 } : St).queue = []
        · rw [if_pos hq]
          exact ⟨hvis, h2, hsub⟩
        · rw [if_neg hq]
          exact ih _ hvis h2 hsub
      · rw [if_neg hbatch]
        have hext : (drawBatch env.cap (env.threads * 2) s.queue s.visited []).2.2 = ext := by
          rw [e1]
          rfl
        have hbfresh : ∀ p ∈ (drawBatch env.cap (env.threads * 2) s.queue s.visited []).2.2,
            p.1 ∉ s.fetchLog := by
          rw [hext]
          intro p hp hmem
          exact (e3 p hp).2 (h3 p.1 hmem)
        have hbnodup :
            ((drawBatch env.cap (env.threads * 2) s.queue s.visited []).2.2.map Prod.fst).Nodup := by
          rw [hext]
          exact e4
        rcases foldBatch_once env domain
            (drawBatch env.cap (env.threads * 2) s.queue s.visited []).2.2
            ({ s with
                queue := (drawBatch env.cap (env.threads * 2) s.queue s.visited []).1,
                visited := (drawBatch env.cap (env.threads * 2) s.queue s.visited []).2.1 })
            h2 hbnodup hbfresh with ⟨g1, g2⟩
        rcases foldBatch_visited env domain
            (drawBatch env.cap (env.threads * 2) s.queue s.visited []).2.2
            ({ s with
                queue := (drawBatch env.cap (env.threads * 2) s.queue s.visited []).1,
                visited := (drawBatch env.cap (env.threads * 2) s.queue s.visited []).2.1 }) with
          ⟨gv, _⟩
        refine ih _ (by rw [gv]; exact hvis) g1 ?_
        intro x hx
        rw [gv]
        rcases g2 x hx with hm | hm
        · exact hsub x hm
        · rw [hext] at hm
          rw [e2]
          exact List.mem_append_right _ hm

theorem crawlLoop_noqf (env : Env) (domain : Url) (fuel : Nat) :
    ∀ s : St, (∀ p ∈ s.queue, NoQF p.1) → (∀ x ∈ s.visited, NoQF x) →
      (∀ x ∈ s.fetchLog, NoQF x) →
      (∀ p ∈ (crawlLoop env domain fuel s).queue, NoQF p.1) ∧
      (∀ x ∈ (crawlLoop env domain fuel s).visited, NoQF x) ∧
      (∀ x ∈ (crawlLoop env domain fuel s).fetchLog, NoQF x) := by
  induction fuel with
  | zero => intro s h1 h2 h3; exact ⟨h1, h2, h3⟩
  | succ fuel ih =>
    intro s h1 h2 h3
    simp only [crawlLoop]
    by_cases hst : s.stop = true
    · rw [if_pos hst]
      exact ⟨h1, h2, h3⟩
    · rw [if_neg hst]
      dsimp only
      rcases drawBatch_spec env.cap (env.threads * 2) s.queue s.visited [] with
        ⟨ext, e1, e2, e3, e4, e5, e6⟩
      have hq' : ∀ p ∈ (drawBatch env.cap (env.threads * 2) s.queue s.visited []).1, NoQF p.1 :=
        fun p hp => h1 p (e5 p hp)
      have hv' : ∀ x ∈ (drawBatch env.cap (env.threads * 2) s.queue s.visited []).2.1, NoQF x := by
        intro x hx
        rw [e2] at hx
        rcases List.mem_append.1 hx with hm | hm
        · exact h2 x hm
        · rcases List.mem_map.1 hm with ⟨p, hp, hpe⟩
          rw [← hpe]
          exact h1 p (e3 p hp).1
      by_cases hbatch : (drawBatch env.cap (env.threads * 2) s.queue s.visited []).2.2 = []
      · rw [if_pos hbatch]
        by_cases hq2 : ({ s with
            queue := (drawBatch env.cap (env.threads * 2) s.queue s.visited []).1,
            visited := (drawBatch env.cap (env.threads * 2) s.queue s.visited []).2.1 } : St).queue = []
        · rw [if_pos hq2]
          exact ⟨hq', hv', h3⟩
        · rw [if_neg hq2]
          exact ih _ hq' hv' h3
      · rw [if_neg hbatch]
        have hext : (drawBatch env.cap (env.threads * 2) s.queue s.visited []).2.2 = ext := by
          rw [e1]
          rfl
        have hbq : ∀ p ∈ (drawBatch env.cap (env.threads * 2) s.queue s.visited []).2.2, NoQF p.1 := by
          rw [hext]
          exact fun p hp => h1 p (e3 p hp).1
        rcases foldBatch_noqf env domain
            (drawBatch env.cap (env.threads * 2) s.queue s.visited []).2.2
            ({ s with
                queue := (drawBatch env.cap (env.threads * 2) s.queue s.visited []).1,
                visited := (drawBatch env.cap (env.threads * 2) s.queue s.visited []).2.1 })
            hq' h3 hbq with ⟨g1, g2⟩
        rcases foldBatch_visited env domain
            (drawBatch env.cap (env.threads * 2) s.queue s.visited []).2.2
            ({ s with
                queue := (drawBatch env.cap (env.threads * 2) s.queue s.visited []).1,
                visited := (drawBatch env.cap (env.threads * 2) s.queue s.visited []).2.1 }) with
          ⟨gv, _⟩
        exact ih _ g1 (by rw [gv]; exact hv') g2

theorem crawlLoop_cap (env : Env) (domain : Url) (fuel : Nat) :
    ∀ s : St, s.visited.length ≤ env.cap →
      (crawlLoop env domain fuel s).visited.length ≤ env.cap := by
  induction fuel with
  | zero => intro s h; exact h
  | succ fuel ih =>
    intro s h
    simp only [crawlLoop]
    by_cases hst : s.stop = true
    · rw [if_pos hst]
      exact h
    · rw [if_neg hst]
      dsimp only
      rcases drawBatch_spec env.cap (env.threads * 2) s.queue s.visited [] with
        ⟨ext, e1, e2, e3, e4, e5, e6⟩
      have hv' : (drawBatch env.cap (env.threads * 2) s.queue s.visited []).2.1.length ≤ env.cap :=
        e6 h
      by_cases hbatch : (drawBatch env.cap (env.threads * 2) s.queue s.visited []).2.2 = []
      · rw [if_pos hbatch]
        by_cases hq2 : ({ s with
            queue := (drawBatch env.cap (env.threads * 2) s.queue s.visited []).1,
            visited := (drawBatch env.cap (env.threads * 2) s.queue s.visited []).2.1 } : St).queue = []
        · rw [if_pos hq2]
          exact hv'
        · rw [if_neg hq2]
          exact ih _ hv'
      · rw [if_neg hbatch]
        refine ih _ ?_
        rcases foldBatch_visited env domain
            (drawBatch env.cap (env.threads * 2) s.queue s.visited []).2.2
            ({ s with
                queue := (drawBatch env.cap (env.threads * 2) s.queue s.visited []).1,
                visited := (drawBatch env.cap (env.threads * 2) s.queue s.visited []).2.1 }) with
          ⟨gv, _⟩
        rw [gv]
        exact hv'

theorem step_cap {env : Env} {domain : Url} {s s' : St}
    (hstep : Step env domain s s') (h : s.visited.length ≤ env.cap) :
    s'.visited.length ≤ env.cap := by
  cases hstep with
  | draw s =>
    rcases drawBatch_spec env.cap (env.threads * 2) s.queue s.visited [] with
      ⟨ext, _, _, _, _, _, e6⟩
    exact e6 h
  | record u source f new_urls s =>
    rw [recordBlock_visited]
    exact h

theorem rtg_cap {env : Env} {domain : Url} {s s' : St}
    (hrtg : Relation.ReflTransGen (Step env domain) s s') (h : s.visited.length ≤ env.cap) :
    s'.visited.length ≤ env.cap := by
  induction hrtg with
  | refl => exact h
  | tail _ hstep ih => exact step_cap hstep ih

theorem crawlLoop_fix {env : Env} {domain : Url} {s : St} (hq : s.queue = []) (n : Nat) :
    crawlLoop env domain (n + 1) s = s := by
  obtain ⟨rs, v, q, st, fl, el⟩ := s
  simp only at hq
  subst hq
  simp only [crawlLoop]
  by_cases hst : st = true
  · rw [if_pos hst]
  · rw [if_neg hst]
    simp [drawBatch]

theorem crawl_invalid_start (env : Env) (start : Url) (e : Exn) (fuel : Nat)
    (hskip : should_skip start = false) (hcap : 0 < env.cap) (hthr : 0 < env.threads)
    (herr : env.net.req1 start = .error e) :
    crawl env start (fuel + 2) =
      ⟨[⟨start, start, none, [], exnMsg e, typeOf start (urlparse start).netloc⟩],
       [start], [], false, [start], []⟩ := by
  have hdb : drawBatch env.cap (env.threads * 2) [(start, start)] [] [] =
      ([], [start], [(start, start)]) := by
    simp only [drawBatch]
    rw [if_pos (by simp only [List.length_nil]; omega)]
    rw [if_pos ⟨List.not_mem_nil _, by simpa using hcap⟩]
    simp [drawBatch]
  have hproc : process env (urlparse start).netloc start start ⟨[], [start], [], false, [], []⟩ =
      ⟨[⟨start, start, none, [], exnMsg e, typeOf start (urlparse start).netloc⟩],
       [start], [], false, [start], []⟩ := by
    rw [process_not_skip (by simp [hskip])]
    rw [fetch_req1_error herr]
    simp [recordBlock, recordOutcome, updateFirst, newRec, finalField]
  unfold crawl initSt
  show crawlLoop env (urlparse start).netloc (fuel + 1 + 1) ⟨[], [], [(start, start)], false, [], []⟩ = _
  simp only [crawlLoop]
  rw [if_neg Bool.false_ne_true]
  rw [hdb]
  rw [if_neg (by simp : ¬([(start, start)] : List (Url × Url)) = [])]
  rw [List.foldl_cons, List.foldl_nil]
  dsimp only
  rw [hproc]
  exact crawlLoop_fix rfl fuel

/-! ## Claim theorems -/

/-- Claim C1 (amended): admission is at-most-once for the visited set and for
fetches — in any crawl run the visited list never repeats a URL, the fetch log
never repeats a URL, and every fetched URL is in the visited set.  The
enqueue half of the original claim is false (see the counterexample): a URL
sitting in the queue but not yet drawn into `visited` can be enqueued again
by a second discoverer. -/
theorem C1_visited_and_fetch_at_most_once (env : Env) (start : Url) (fuel : Nat) :
    (crawl env start fuel).visited.Nodup ∧ (crawl env start fuel).fetchLog.Nodup ∧
    ∀ x ∈ (crawl env start fuel).fetchLog, x ∈ (crawl env start fuel).visited := by
  unfold crawl
  exact crawlLoop_once env (urlparse start).netloc fuel (initSt start)
    List.nodup_nil List.nodup_nil (fun x hx => absurd hx (List.not_mem_nil x))

/-- Witness for C1 on the concrete two-discoverer crawl. -/
theorem C1_witness :
    run1.visited.Nodup ∧ run1.fetchLog.Nodup ∧ ∀ x ∈ run1.fetchLog, x ∈ run1.visited :=
  C1_visited_and_fetch_at_most_once env1 "http://e/".data 6

/-- Counterexample to C1 as stated: the URL `http://e/L` is discovered by two
pages processed in the same batch and is appended to the queue twice (and gets
two result records), so enqueueing is not at-most-once. -/
theorem C1_counterexample :
    run1.enqueueLog.count "http://e/L".data = 2 ∧
    (run1.results.filter (fun r => r.url == "http://e/L".data)).length = 2 ∧
    run1.queue = [] ∧ run1.stop = false := by decide

/-- Claim C2 (amended): at any point of a crawl — in particular in the
terminal state — every URL that was actually fetched has a result record
carrying that fetch's status and error.  The original claim is false: a URL
whose fetch fails in transport keeps a null status in its record even at the
terminal state (see the counterexample). -/
theorem C2_every_fetch_resolved (env : Env) (start : Url) (fuel : Nat) :
    ∀ u ∈ (crawl env start fuel).fetchLog,
      hasOutcome u (fetch env.net env.j u (urlparse start).netloc)
        (crawl env start fuel).results := by
  unfold crawl
  exact crawlLoop_resolved env (urlparse start).netloc fuel (initSt start)
    (fun x hx => absurd hx (List.not_mem_nil x))

/-- Witness for C2 on the all-failures crawl. -/
theorem C2_witness :
    "http://e/".data ∈ run2.fetchLog ∧
    hasOutcome "http://e/".data
      (fetch env2.net env2.j "http://e/".data (urlparse "http://e/".data).netloc)
      run2.results :=
  ⟨by decide, C2_every_fetch_resolved env2 "http://e/".data 4 "http://e/".data (by decide)⟩

/-- Counterexample to C2 as stated: with every request failing, the crawl
reaches its terminal state (empty queue, not stopped) with the start URL's
record still carrying a null status. -/
theorem C2_counterexample :
    run2.queue = [] ∧ run2.stop = false ∧
    run2.results = [⟨"http://e/".data, "http://e/".data, none, [],
      "Connection error".data, "internal".data⟩] := by decide

/-- Claim C3: a redirect whose resolved Location carries a not-found marker
short-circuits to status 404 with the resolved URL as final, no body, no
error, and exactly one outbound request. -/
theorem C3_soft404_short_circuit (net : Net) (j : Url → Url → Url) (url domain : Url)
    (r : Resp) (h1 : net.req1 url = .ok r) (h2 : r.status ∈ redirectCodes)
    (h3 : notFoundMarker (urljoin j url (r.location.getD [])) = true) :
    fetch net j url domain = ⟨some 404, urljoin j url (r.location.getD []), none, none, 1⟩ :=
  fetch_soft404 h1 h2 h3

/-- Witness for C3: a 301 to `http://e/404`. -/
theorem C3_witness :
    net3.req1 "http://e/p".data = .ok ⟨301, some "http://e/404".data, [], []⟩ ∧
    fetch net3 jAbs "http://e/p".data "e".data =
      ⟨some 404, "http://e/404".data, none, none, 1⟩ :=
  ⟨rfl, C3_soft404_short_circuit net3 jAbs "http://e/p".data "e".data
    ⟨301, some "http://e/404".data, [], []⟩ rfl (by decide) (by decide)⟩

/-- Claim C4 (amended): a request exception makes `fetch` return the tuple
(null status, original URL, no body, `str(e)` as the error) instead of
propagating, and the processed URL still gets a result record carrying that
status and error.  The original claim's "non-empty error string" is false:
the catch-all branch stores `str(e)`, which can be the empty string (see the
counterexample). -/
theorem C4_exception_mapped (env : Env) (domain u source : Url) (s : St) (e : Exn)
    (herr : env.net.req1 u = .error e) (hc : ¬(s.stop ∨ should_skip u = true)) :
    fetch env.net env.j u domain = ⟨none, u, none, some (exnMsg e), 1⟩ ∧
    hasOutcome u (fetch env.net env.j u domain) (process env domain u source s).results :=
  ⟨fetch_req1_error herr, process_establishes hc⟩

/-- Witness for C4 with the empty-message catch-all exception. -/
theorem C4_witness :
    envC4.net.req1 "http://e/".data = .error (.other []) ∧
    (fetch envC4.net envC4.j "http://e/".data "e".data =
        ⟨none, "http://e/".data, none, some (exnMsg (.other [])), 1⟩ ∧
      hasOutcome "http://e/".data (fetch envC4.net envC4.j "http://e/".data "e".data)
        (process envC4 "e".data "http://e/".data "http://e/".data
          (initSt "http://e/".data)).results) :=
  ⟨rfl, C4_exception_mapped envC4 "e".data "http://e/".data "http://e/".data
    (initSt "http://e/".data) (.other []) rfl (by decide)⟩

/-- Counterexample to C4 as stated: an exception whose `str(e)` is empty
yields the empty string as the recorded error — not a non-empty descriptive
string. -/
theorem C4_counterexample :
    fetch netC4 jAbs "http://e/".data "e".data =
      ⟨none, "http://e/".data, none, some [], 1⟩ := by decide

/-- Claim C5: `fetch` returns a body only for internal URLs whose final
status is 200; for an external URL, or a non-200 status, the body is none
(so such pages are never parsed for links). -/
theorem C5_body_only_internal_200 (net : Net) (j : Url → Url → Url) (url domain : Url)
    (h : is_internal url domain = false ∨ (fetch net j url domain).status ≠ some 200) :
    (fetch net j url domain).body = none := by
  rcases hb : (fetch net j url domain).body with _ | b
  · rfl
  · rcases fetch_body_internal_200 hb with ⟨hi, hs⟩
    rcases h with h | h
    · rw [hi] at h
      cases h
    · exact absurd hs h

/-- Witness for C5: an internal 404 with a nonempty response body still
yields a none body. -/
theorem C5_witness :
    (fetch net5 jAbs "http://x/p".data "x".data).status ≠ some 200 ∧
    (fetch net5 jAbs "http://x/p".data "x".data).body = none :=
  ⟨by decide, C5_body_only_internal_200 net5 jAbs "http://x/p".data "x".data
    (Or.inr (by decide))⟩

/-- Claim C6: the visited set never exceeds the page cap — along any
interleaving of the atomic critical sections (the `Step` relation), and in
the sequential crawl itself. -/
theorem C6_cap_respected :
    (∀ (env : Env) (domain : Url) (s t : St), Relation.ReflTransGen (Step env domain) s t →
      s.visited.length ≤ env.cap → t.visited.length ≤ env.cap) ∧
    ∀ (env : Env) (start : Url) (fuel : Nat),
      (crawl env start fuel).visited.length ≤ env.cap := by
  constructor
  · intro env domain s t h1 h2
    exact rtg_cap h1 h2
  · intro env start fuel
    unfold crawl
    exact crawlLoop_cap env (urlparse start).netloc fuel (initSt start) (Nat.zero_le _)

/-- Witness for C6 at cap 2. -/
theorem C6_witness :
    (initSt "http://e/".data).visited.length ≤ env6.cap ∧
    (crawl env6 "http://e/".data 3).visited.length ≤ env6.cap :=
  ⟨C6_cap_respected.1 env6 [] (initSt "http://e/".data) (initSt "http://e/".data)
      Relation.ReflTransGen.refl (by decide),
   C6_cap_respected.2 env6 "http://e/".data 3⟩

/-- Claim C7 (amended): provided the start URL itself is free of query and
fragment, every URL the crawl stores (queue and visited set) and every URL it
fetches is free of query and fragment.  The unconditional claim is false: the
start URL is seeded, stored and fetched verbatim, without normalization (see
the counterexample). -/
theorem C7_stored_urls_normalized (env : Env) (start : Url) (fuel : Nat) (h : NoQF start) :
    (∀ p ∈ (crawl env start fuel).queue, NoQF p.1) ∧
    (∀ x ∈ (crawl env start fuel).visited, NoQF x) ∧
    (∀ x ∈ (crawl env start fuel).fetchLog, NoQF x) := by
  unfold crawl
  refine crawlLoop_noqf env (urlparse start).netloc fuel (initSt start) ?_ ?_ ?_
  · intro p hp
    have hp' := List.mem_singleton.1 hp
    rw [hp']
    exact h
  · exact fun x hx => absurd hx (List.not_mem_nil x)
  · exact fun x hx => absurd hx (List.not_mem_nil x)

/-- Witness for C7 from a query-free start URL. -/
theorem C7_witness :
    NoQF "http://e/a".data ∧
    ((∀ p ∈ (crawl env7w "http://e/a".data 3).queue, NoQF p.1) ∧
     (∀ x ∈ (crawl env7w "http://e/a".data 3).visited, NoQF x) ∧
     (∀ x ∈ (crawl env7w "http://e/a".data 3).fetchLog, NoQF x)) :=
  ⟨by decide, C7_stored_urls_normalized env7w "http://e/a".data 3 (by decide)⟩

/-- Counterexample to C7 as stated: a start URL carrying a query string is
fetched verbatim, with the query intact, even though normalizing it would
strip the query. -/
theorem C7_counterexample :
    run7.fetchLog = ["http://e/?q=1".data] ∧ '?' ∈ "http://e/?q=1".data ∧
    normalize "http://e/?q=1".data ≠ "http://e/?q=1".data := by decide

/-- Claim C8 (amended): the crawl performs no validation of the start URL.
Whatever the start string, it is seeded, dispatched and issued as an HTTP
request; if that request raises, the crawl terminates normally with an
ordinary per-URL record carrying the error — no configuration failure
distinct from a fetch error exists. -/
theorem C8_invalid_start_fetched_and_recorded (env : Env) (start : Url) (e : Exn)
    (fuel : Nat) (hskip : should_skip start = false) (hcap : 0 < env.cap)
    (hthr : 0 < env.threads) (herr : env.net.req1 start = .error e) :
    crawl env start (fuel + 2) =
      ⟨[⟨start, start, none, [], exnMsg e, typeOf start (urlparse start).netloc⟩],
       [start], [], false, [start], []⟩ :=
  crawl_invalid_start env start e fuel hskip hcap hthr herr

/-- Witness for C8 on a malformed start URL. -/
theorem C8_witness :
    should_skip "ht tp://bad url".data = false ∧ 0 < env8w.cap ∧ 0 < env8w.threads ∧
    crawl env8w "ht tp://bad url".data 2 =
      ⟨[⟨"ht tp://bad url".data, "ht tp://bad url".data, none, [],
         "Connection error".data, "internal".data⟩],
       ["ht tp://bad url".data], [], false, ["ht tp://bad url".data], []⟩ :=
  ⟨by decide, by decide, by decide,
   C8_invalid_start_fetched_and_recorded env8w "ht tp://bad url".data .connectionError 0
     (by decide) (by decide) (by decide) rfl⟩

/-- Counterexample to C8 as stated: the crawl does not fail before issuing a
request for an unparseable start URL — the request is issued and its failure
is recorded as an ordinary per-URL fetch error. -/
theorem C8_counterexample :
    run8.fetchLog = ["ht tp://bad url".data] ∧
    run8.results = [⟨"ht tp://bad url".data, "ht tp://bad url".data, none, [],
      "Connection error".data, "internal".data⟩] := by decide

/-- Claim C9 (amended): `normalize` is idempotent on every URL whose parse is
not slash-degenerate (empty netloc and a rejoined path starting `//` whose
authority-position segment is empty, not rescued by the scheme rule).  Full
idempotence is false (see the counterexample). -/
theorem C9_normalize_idempotent_off_degenerate (u : Url)
    (h : ¬slashDegenerate (urlparse u)) :
    normalize (normalize u) = normalize u :=
  normalize_idem_of_not_degenerate u h

/-- Witness for C9 on an ordinary URL. -/
theorem C9_witness :
    ¬slashDegenerate (urlparse "http://example.com/a?q=1#f".data) ∧
    normalize (normalize "http://example.com/a?q=1#f".data) =
      normalize "http://example.com/a?q=1#f".data :=
  ⟨by decide, C9_normalize_idempotent_off_degenerate "http://example.com/a?q=1#f".data
    (by decide)⟩

/-- Counterexample to C9 as stated: `normalize` is not idempotent on
`http://////x` — the first pass collapses the empty authority, the second
collapses it again differently. -/
theorem C9_counterexample :
    normalize (normalize "http://////x".data) ≠ normalize "http://////x".data := by decide

/-- Claim C10: a redirect response with no Location header resolves the empty
location back to the original URL; provided that URL has no not-found marker,
a second GET is issued to it and its status and final URL are returned. -/
theorem C10_missing_location_refetches_original (net : Net) (j : Url → Url → Url)
    (url domain : Url) (r r2 : Resp)
    (h1 : net.req1 url = .ok r) (hloc : r.location = none) (h2 : r.status ∈ redirectCodes)
    (h3 : notFoundMarker url = false) (h4 : net.req2 url = .ok r2) :
    urljoin j url (r.location.getD []) = url ∧
    fetch net j url domain =
      ⟨some r2.status, r2.rurl,
       if is_internal url domain && r2.status == 200 then some r2.text else none, none, 2⟩ := by
  have hjoin : urljoin j url (r.location.getD []) = url := by
    rw [hloc]
    exact urljoin_nil j url
  refine ⟨hjoin, ?_⟩
  refine fetch_redirect_follow h1 h2 ?_ ?_
  · rw [hjoin]
    exact h3
  · rw [hjoin]
    exact h4

/-- Witness for C10: a 302 without Location followed by a 200. -/
theorem C10_witness :
    net10.req1 "http://e/r".data = .ok ⟨302, none, [], []⟩ ∧
    net10.req2 "http://e/r".data = .ok ⟨200, none, "B".data, "http://e/r".data⟩ ∧
    (urljoin jAbs "http://e/r".data [] = "http://e/r".data ∧
     fetch net10 jAbs "http://e/r".data "e".data =
       ⟨some 200, "http://e/r".data, some "B".data, none, 2⟩) :=
  ⟨rfl, rfl,
   C10_missing_location_refetches_original net10 jAbs "http://e/r".data "e".data
     ⟨302, none, [], []⟩ ⟨200, none, "B".data, "http://e/r".data⟩
     rfl rfl (by decide) (by decide) rfl⟩

end App
